import Mathlib

/-!
Verification of the core organizing logic of the `file-organizer` repository
(`src/file_organizer/v1/organizer.py` and `src/file_organizer/v2/organizer.py`).

The Python code is shallowly embedded:
* `pathlib.PurePosixPath` values are modelled by `PPath` (an absolute flag plus a
  normalized component list); `str(Path(s))` normalization (collapsing `//`,
  dropping `.` components and trailing slashes, rendering the empty path as `"."`)
  is modelled by `pyPath` / `PPath.str` via an explicit character-level
  split/join on `'/'`.
* The filesystem is an explicit state `FS`: an association list of regular files
  (path, file identity) plus a list of directories.  `shutil.move`,
  `Path.mkdir(parents=True, exist_ok=True)`, `Path.exists`, `Path.is_file`,
  `Path.is_dir` and `Path.iterdir` become functions on `FS`; operations that can
  raise in Python return `Except String`, with `.error` meaning the exception
  propagates to the caller.
* Decimal rendering of an `f"{counter}"` interpolation is modelled by
  `natDecimal` (a fueled structural recursion so that everything evaluates by
  `decide`).
-/

/-! ### Decimal rendering of naturals (Python `str(int)` / f-string interpolation) -/

/-- Fueled decimal printer; with fuel `> n` it produces the usual base-10
representation of `n`, most significant digit first. -/
def natDecimalAux : Nat → Nat → List Char
  | 0, _ => []
  | fuel + 1, n =>
    if n < 10 then [Nat.digitChar n]
    else natDecimalAux fuel (n / 10) ++ [Nat.digitChar (n % 10)]

/-- The decimal digit string of `n`, as Python's `str(n)` renders it. -/
def natDecimal (n : Nat) : List Char := natDecimalAux (n + 1) n

/-- Numeric value of a decimal digit string (left inverse of `natDecimal`). -/
def decVal (cs : List Char) : Nat := cs.foldl (fun a c => 10 * a + (c.toNat - 48)) 0

lemma decVal_append (cs : List Char) (c : Char) :
    decVal (cs ++ [c]) = 10 * decVal cs + (c.toNat - 48) := by
  unfold decVal
  rw [List.foldl_append]
  rfl

set_option maxRecDepth 4000 in
lemma digitChar_val (d : Nat) (hd : d < 10) : (Nat.digitChar d).toNat - 48 = d := by
  revert hd
  revert d
  decide

lemma decVal_natDecimalAux (fuel n : Nat) (h : n < fuel) :
    decVal (natDecimalAux fuel n) = n := by
  induction fuel generalizing n with
  | zero => omega
  | succ fuel ih =>
    by_cases h10 : n < 10
    · simp [natDecimalAux, h10, decVal, digitChar_val n h10]
    · have hd : n / 10 < fuel := by
        have : n / 10 < n := Nat.div_lt_self (by omega) (by omega)
        omega
      have hm : n % 10 < 10 := Nat.mod_lt _ (by omega)
      simp only [natDecimalAux, if_neg h10, decVal_append, ih (n / 10) hd,
        digitChar_val _ hm]
      omega

lemma decVal_natDecimal (n : Nat) : decVal (natDecimal n) = n :=
  decVal_natDecimalAux (n + 1) n (Nat.lt_succ_self n)

lemma natDecimal_inj {m n : Nat} (h : natDecimal m = natDecimal n) : m = n := by
  have := decVal_natDecimal m
  rw [h, decVal_natDecimal] at this
  omega

lemma natDecimalAux_chars (fuel n : Nat) :
    ∀ c ∈ natDecimalAux fuel n, c ≠ '/' ∧ c ≠ '.' := by
  induction fuel generalizing n with
  | zero => simp [natDecimalAux]
  | succ fuel ih =>
    intro c hc
    by_cases h10 : n < 10
    · simp only [natDecimalAux, if_pos h10, List.mem_singleton] at hc
      subst hc
      have : ∀ d, d < 10 → Nat.digitChar d ≠ '/' ∧ Nat.digitChar d ≠ '.' := by decide
      exact this n h10
    · simp only [natDecimalAux, if_neg h10, List.mem_append, List.mem_singleton] at hc
      rcases hc with hc | hc
      · exact ih (n / 10) c hc
      · subst hc
        have : ∀ d, d < 10 → Nat.digitChar d ≠ '/' ∧ Nat.digitChar d ≠ '.' := by decide
        exact this (n % 10) (Nat.mod_lt _ (by omega))

lemma natDecimal_ne_nil (n : Nat) : natDecimal n ≠ [] := by
  unfold natDecimal natDecimalAux
  by_cases h10 : n < 10 <;> simp [h10]

/-! ### POSIX path model (`pathlib.PurePosixPath`) -/

/-- Split a character list at `'/'` separators (keeping empty pieces). -/
def splitSlash : List Char → List (List Char)
  | [] => [[]]
  | c :: rest =>
    if c = '/' then [] :: splitSlash rest
    else
      match splitSlash rest with
      | [] => [[c]]
      | g :: gs => (c :: g) :: gs

/-- Join character-list components with `'/'` separators. -/
def joinComps : List (List Char) → List Char
  | [] => []
  | [c] => c
  | c :: c2 :: rest => c ++ '/' :: joinComps (c2 :: rest)

lemma splitSlash_ne_nil (cs : List Char) : splitSlash cs ≠ [] := by
  induction cs with
  | nil => simp [splitSlash]
  | cons c rest ih =>
    by_cases h : c = '/'
    · simp [splitSlash, h]
    · simp only [splitSlash, if_neg h]
      cases hs : splitSlash rest with
      | nil => simp
      | cons g gs => simp

lemma splitSlash_no_slash (cs : List Char) (h : '/' ∉ cs) : splitSlash cs = [cs] := by
  induction cs with
  | nil => rfl
  | cons c rest ih =>
    have hc : c ≠ '/' := fun hc => h (hc ▸ List.mem_cons_self c rest)
    have hr : '/' ∉ rest := fun hr => h (List.mem_cons_of_mem c hr)
    simp only [splitSlash, if_neg hc, ih hr]

lemma splitSlash_append (g rest : List Char) (h : '/' ∉ g) :
    splitSlash (g ++ '/' :: rest) = g :: splitSlash rest := by
  induction g with
  | nil => simp [splitSlash]
  | cons c gtl ih =>
    have hc : c ≠ '/' := fun hc => h (hc ▸ List.mem_cons_self c gtl)
    have hg : '/' ∉ gtl := fun hg => h (List.mem_cons_of_mem c hg)
    simp only [List.cons_append, splitSlash, if_neg hc, List.append_eq]
    rw [ih hg]

lemma mem_splitSlash_no_slash (cs : List Char) :
    ∀ g ∈ splitSlash cs, '/' ∉ g := by
  induction cs with
  | nil => simp [splitSlash]
  | cons c rest ih =>
    by_cases h : c = '/'
    · simp only [splitSlash, if_pos h]
      intro g hg
      rcases List.mem_cons.mp hg with hg | hg
      · simp [hg]
      · exact ih g hg
    · simp only [splitSlash, if_neg h]
      cases hs : splitSlash rest with
      | nil => exact absurd hs (splitSlash_ne_nil rest)
      | cons p ps =>
        intro g hg
        rcases List.mem_cons.mp hg with hg | hg
        · subst hg
          intro hmem
          rcases List.mem_cons.mp hmem with hc | hc
          · exact h hc.symm
          · exact ih p (hs ▸ List.mem_cons_self p ps) hc
        · exact ih g (hs ▸ List.mem_cons_of_mem p hg)

/-- A `pathlib` pure path: absolute flag plus normalized component list. -/
structure PPath where
  abs : Bool
  comps : List String
deriving DecidableEq, Repr

/-- The components `pathlib` keeps from one string argument: split on `'/'`,
dropping empty and `"."` pieces. -/
def splitComps (s : String) : List String :=
  ((splitSlash s.data).filter (fun g => decide (g ≠ [] ∧ g ≠ ['.']))).map
    (fun g => String.mk g)

/-- `Path(s)` for one string argument. -/
def pyPath (s : String) : PPath :=
  ⟨decide (s.data.head? = some '/'), splitComps s⟩

/-- `p / s` (`PurePath.joinpath`): an absolute right operand replaces the path. -/
def PPath.join (p : PPath) (s : String) : PPath :=
  if s.data.head? = some '/' then pyPath s
  else ⟨p.abs, p.comps ++ splitComps s⟩

/-- `PurePath.parent`. -/
def PPath.parent (p : PPath) : PPath := ⟨p.abs, p.comps.dropLast⟩

/-- `PurePath.name` (empty for `.` and `/`). -/
def PPath.name (p : PPath) : String := p.comps.getLast?.getD ""

/-- The character rendering behind `str(path)`. -/
def PPath.strData (p : PPath) : List Char :=
  if p.abs then '/' :: joinComps (p.comps.map String.data)
  else if p.comps = [] then ['.']
  else joinComps (p.comps.map String.data)

/-- `str(path)`: the empty relative path renders as `"."`. -/
def PPath.str (p : PPath) : String := String.mk p.strData

/-- Well-formedness of a single stored component: nonempty, not `"."`, no slash. -/
def goodComp (s : String) : Prop := s.data ≠ [] ∧ s.data ≠ ['.'] ∧ '/' ∉ s.data

/-- Normal form: every stored component is a real name.  All paths produced by
`pyPath` and `PPath.join` are in normal form. -/
def PPath.NF (p : PPath) : Prop := ∀ s ∈ p.comps, goodComp s

lemma splitComps_good (s : String) : ∀ c ∈ splitComps s, goodComp c := by
  intro c hc
  simp only [splitComps, List.mem_map] at hc
  obtain ⟨g, hg, rfl⟩ := hc
  rw [List.mem_filter] at hg
  obtain ⟨hgmem, hgcond⟩ := hg
  have hcond := of_decide_eq_true hgcond
  exact ⟨hcond.1, hcond.2, mem_splitSlash_no_slash s.data g hgmem⟩

lemma pyPath_NF (s : String) : (pyPath s).NF := splitComps_good s

lemma PPath.join_NF (p : PPath) (s : String) (hp : p.NF) : (p.join s).NF := by
  unfold PPath.join
  split
  · exact pyPath_NF s
  · intro c hc
    rcases List.mem_append.mp hc with hc | hc
    · exact hp c hc
    · exact splitComps_good s c hc

lemma splitComps_single (s : String) (hs : goodComp s) : splitComps s = [s] := by
  unfold splitComps
  rw [splitSlash_no_slash s.data hs.2.2]
  have hd : (decide (s.data ≠ [] ∧ s.data ≠ ['.'])) = true :=
    decide_eq_true ⟨hs.1, hs.2.1⟩
  simp only [List.filter, hd, List.map]

lemma PPath.join_single (p : PPath) (s : String) (hs : goodComp s) :
    p.join s = ⟨p.abs, p.comps ++ [s]⟩ := by
  have hns : ¬ s.data.head? = some '/' := by
    intro h
    exact hs.2.2 (List.mem_of_mem_head? (by rw [h]; rfl))
  unfold PPath.join
  rw [if_neg hns, splitComps_single s hs]

lemma joinComps_head? (d : List Char) (rest : List (List Char)) (hd : d ≠ []) :
    (joinComps (d :: rest)).head? = d.head? := by
  rcases d with _ | ⟨x, xs⟩
  · exact absurd rfl hd
  · cases rest with
    | nil => rfl
    | cons d2 rest2 => rfl

lemma splitSlash_joinComps (ds : List (List Char))
    (h : ∀ d ∈ ds, d ≠ [] ∧ '/' ∉ d) (hne : ds ≠ []) :
    splitSlash (joinComps ds) = ds := by
  induction ds with
  | nil => exact absurd rfl hne
  | cons d rest ih =>
    cases rest with
    | nil =>
      show splitSlash d = [d]
      exact splitSlash_no_slash d (h d (List.mem_cons_self d [])).2
    | cons d2 rest2 =>
      show splitSlash (d ++ '/' :: joinComps (d2 :: rest2)) = d :: d2 :: rest2
      rw [splitSlash_append d _ (h d (List.mem_cons_self _ _)).2]
      rw [ih (fun x hx => h x (List.mem_cons_of_mem d hx)) (by simp)]


lemma pyPath_str (p : PPath) (hp : p.NF) : pyPath p.str = p := by
  have hds : ∀ d ∈ p.comps.map String.data, d ≠ [] ∧ '/' ∉ d := by
    intro d hd
    obtain ⟨s, hs, rfl⟩ := List.mem_map.mp hd
    exact ⟨(hp s hs).1, (hp s hs).2.2⟩
  have hgood : ∀ d ∈ p.comps.map String.data,
      (decide (d ≠ [] ∧ d ≠ ['.'])) = true := by
    intro d hd
    obtain ⟨s, hs, rfl⟩ := List.mem_map.mp hd
    exact decide_eq_true ⟨(hp s hs).1, (hp s hs).2.1⟩
  rcases p with ⟨ab, comps⟩
  cases ab with
  | false =>
    cases comps with
    | nil => rfl
    | cons c0 crest =>
      have h0 : c0.data ≠ [] := (hp c0 (List.mem_cons_self _ _)).1
      have h0s : '/' ∉ c0.data := (hp c0 (List.mem_cons_self _ _)).2.2
      have hstr : (PPath.mk false (c0 :: crest)).str.data =
          joinComps ((c0 :: crest).map String.data) := rfl
      have hjoin : splitSlash (joinComps ((c0 :: crest).map String.data)) =
          (c0 :: crest).map String.data := splitSlash_joinComps _ hds (by simp)
      have hhead : (joinComps ((c0 :: crest).map String.data)).head? = c0.data.head? := by
        rw [List.map_cons]
        exact joinComps_head? c0.data _ h0
      have habs : (decide ((PPath.mk false (c0 :: crest)).str.data.head? = some '/'))
          = false := by
        rw [hstr, hhead, decide_eq_false_iff_not]
        intro hh
        exact h0s (List.mem_of_mem_head? (by rw [hh]; rfl))
      have hpy : pyPath (PPath.mk false (c0 :: crest)).str =
          ⟨decide ((PPath.mk false (c0 :: crest)).str.data.head? = some '/'),
            splitComps (PPath.mk false (c0 :: crest)).str⟩ := rfl
      rw [hpy, habs]
      congr 1
      unfold splitComps
      rw [hstr, hjoin, List.filter_eq_self.mpr hgood, List.map_map]
      exact List.map_id'' (fun s => rfl) _
  | true =>
    cases comps with
    | nil => rfl
    | cons c0 crest =>
      have hstr : (PPath.mk true (c0 :: crest)).str.data =
          '/' :: joinComps ((c0 :: crest).map String.data) := rfl
      have hjoin : splitSlash (joinComps ((c0 :: crest).map String.data)) =
          (c0 :: crest).map String.data := splitSlash_joinComps _ hds (by simp)
      have hpy : pyPath (PPath.mk true (c0 :: crest)).str =
          ⟨decide ((PPath.mk true (c0 :: crest)).str.data.head? = some '/'),
            splitComps (PPath.mk true (c0 :: crest)).str⟩ := rfl
      have habs : (decide ((PPath.mk true (c0 :: crest)).str.data.head? = some '/'))
          = true := by
        rw [hstr]
        rfl
      rw [hpy, habs]
      congr 1
      unfold splitComps
      rw [hstr]
      rw [show splitSlash ('/' :: joinComps ((c0 :: crest).map String.data)) =
          [] :: splitSlash (joinComps ((c0 :: crest).map String.data)) from by
        simp [splitSlash]]
      rw [hjoin, List.filter_cons,
        show (decide (([] : List Char) ≠ [] ∧ ([] : List Char) ≠ ['.'])) = false from by
          decide]
      simp only [Bool.false_eq_true, if_false]
      rw [List.filter_eq_self.mpr hgood, List.map_map]
      exact List.map_id'' (fun s => rfl) _

lemma PPath.str_ne_empty (p : PPath) (hp : p.NF) : p.str.data ≠ [] := by
  rcases p with ⟨ab, comps⟩
  cases ab with
  | false =>
    cases comps with
    | nil => simp [PPath.str, PPath.strData]
    | cons c0 crest =>
      show joinComps ((c0 :: crest).map String.data) ≠ []
      have h0 : c0.data ≠ [] := (hp c0 (List.mem_cons_self _ _)).1
      intro hnil
      have hh : (joinComps ((c0 :: crest).map String.data)).head? = c0.data.head? := by
        rw [List.map_cons]
        exact joinComps_head? c0.data _ h0
      rw [hnil] at hh
      rcases hd : c0.data with _ | ⟨x, xs⟩
      · exact h0 hd
      · rw [hd] at hh
        simp at hh
  | true => simp [PPath.str, PPath.strData]

/-! #### Ancestors (directory chains) -/

/-- `p` is an ancestor-or-self of `q` (same root, component list is an initial
segment). -/
def PPath.ancestorOf (p q : PPath) : Prop :=
  p.abs = q.abs ∧ p.comps = q.comps.take p.comps.length

instance (p q : PPath) : Decidable (p.ancestorOf q) := by
  unfold PPath.ancestorOf
  infer_instance

/-- All ancestors of `p`, from the root down to `p` itself (the chain of
directories `Path.mkdir(parents=True)` guarantees to exist). -/
def PPath.ancestors (p : PPath) : List PPath :=
  (List.range (p.comps.length + 1)).map (fun i => ⟨p.abs, p.comps.take i⟩)

lemma PPath.mem_ancestors {q p : PPath} : q ∈ p.ancestors ↔ q.ancestorOf p := by
  constructor
  · intro hq
    obtain ⟨i, hi, rfl⟩ := List.mem_map.mp hq
    rw [List.mem_range] at hi
    refine ⟨rfl, ?_⟩
    show List.take i p.comps = List.take (List.take i p.comps).length p.comps
    rw [List.length_take, ← List.take_take, List.take_length]
  · rintro ⟨hab, hcomps⟩
    unfold PPath.ancestors
    rw [List.mem_map]
    refine ⟨q.comps.length, ?_, ?_⟩
    · rw [List.mem_range]
      have : q.comps.length = min q.comps.length p.comps.length := by
        conv_lhs => rw [hcomps]
        rw [List.length_take]
      omega
    · rcases q with ⟨qa, qc⟩
      simp only at hab hcomps
      rw [← hab, ← hcomps]

lemma PPath.ancestorOf_self (p : PPath) : p.ancestorOf p :=
  ⟨rfl, (List.take_length p.comps).symm⟩

lemma PPath.self_mem_ancestors (p : PPath) : p ∈ p.ancestors :=
  PPath.mem_ancestors.mpr (PPath.ancestorOf_self p)

lemma PPath.ancestorOf_parent_of_ancestorOf {q p : PPath}
    (h : q.ancestorOf p.parent) : q.ancestorOf p := by
  obtain ⟨hab, hcomps⟩ := h
  have hdrop : p.parent.comps = p.comps.take (p.comps.length - 1) :=
    List.dropLast_eq_take p.comps
  have hq : q.comps = p.comps.take (min q.comps.length (p.comps.length - 1)) := by
    conv_lhs => rw [hcomps]
    rw [hdrop, List.take_take]
  have hlen : q.comps.length ≤ p.comps.length - 1 := by
    have := congrArg List.length hq
    rw [List.length_take] at this
    omega
  refine ⟨hab, ?_⟩
  rw [hq]
  congr 1
  rw [List.length_take]
  omega

/-! #### `PurePath.stem` / `PurePath.suffix` -/

/-- Index of the last `'.'` in a name, if any. -/
def lastDotIdx (cs : List Char) : Option Nat :=
  match cs.reverse.findIdx? (fun c => decide (c = '.')) with
  | none => none
  | some j => some (cs.length - 1 - j)

/-- Characters of `PurePath.stem`: everything before the last dot, provided that
dot is neither leading nor trailing (pathlib's rule). -/
def nameStemData (cs : List Char) : List Char :=
  match lastDotIdx cs with
  | some i => if 0 < i ∧ i + 1 < cs.length then cs.take i else cs
  | none => cs

/-- Characters of `PurePath.suffix`. -/
def nameSuffixData (cs : List Char) : List Char :=
  match lastDotIdx cs with
  | some i => if 0 < i ∧ i + 1 < cs.length then cs.drop i else []
  | none => []

def PPath.stem (p : PPath) : String := String.mk (nameStemData p.name.data)

def PPath.suffix (p : PPath) : String := String.mk (nameSuffixData p.name.data)

lemma nameStemData_subset (cs : List Char) : ∀ c ∈ nameStemData cs, c ∈ cs := by
  intro c h
  unfold nameStemData at h
  rcases hi : lastDotIdx cs with _ | i
  · rw [hi] at h
    exact h
  · rw [hi] at h
    dsimp only at h
    by_cases hc : 0 < i ∧ i + 1 < cs.length
    · rw [if_pos hc] at h
      exact List.mem_of_mem_take h
    · rw [if_neg hc] at h
      exact h

lemma nameSuffixData_subset (cs : List Char) : ∀ c ∈ nameSuffixData cs, c ∈ cs := by
  intro c h
  unfold nameSuffixData at h
  rcases hi : lastDotIdx cs with _ | i
  · rw [hi] at h
    exact absurd h (List.not_mem_nil c)
  · rw [hi] at h
    dsimp only at h
    by_cases hc : 0 < i ∧ i + 1 < cs.length
    · rw [if_pos hc] at h
      exact List.mem_of_mem_drop h
    · rw [if_neg hc] at h
      exact absurd h (List.not_mem_nil c)

/-- The collision-avoidance candidate name `f"{stem}_{counter}{suffix}"`. -/
def candName (st sf : String) (k : Nat) : String :=
  st ++ "_" ++ String.mk (natDecimal k) ++ sf

lemma candName_data (st sf : String) (k : Nat) :
    (candName st sf k).data = st.data ++ '_' :: (natDecimal k ++ sf.data) := by
  show ((st.data ++ ['_']) ++ natDecimal k) ++ sf.data = _
  simp [List.append_assoc]

lemma candName_inj (st sf : String) {j k : Nat}
    (h : candName st sf j = candName st sf k) : j = k := by
  have hd := congrArg String.data h
  rw [candName_data, candName_data] at hd
  have h1 := List.append_cancel_left hd
  have h2 : natDecimal j ++ sf.data = natDecimal k ++ sf.data := by
    injection h1
  exact natDecimal_inj (List.append_cancel_right h2)

lemma candName_good (st sf : String) (k : Nat)
    (hst : '/' ∉ st.data) (hsf : '/' ∉ sf.data) : goodComp (candName st sf k) := by
  have hu : '_' ∈ (candName st sf k).data := by
    rw [candName_data]
    exact List.mem_append.mpr (Or.inr (List.mem_cons_self _ _))
  refine ⟨?_, ?_, ?_⟩
  · intro hnil
    rw [hnil] at hu
    exact List.not_mem_nil _ hu
  · intro hdot
    rw [hdot] at hu
    rcases List.mem_singleton.mp hu with h
    exact absurd h (by decide)
  · rw [candName_data]
    intro hmem
    rcases List.mem_append.mp hmem with hmem | hmem
    · exact hst hmem
    · rcases List.mem_cons.mp hmem with hmem | hmem
      · exact absurd hmem (by decide)
      · rcases List.mem_append.mp hmem with hmem | hmem
        · exact (natDecimalAux_chars _ _ '/' hmem).1 rfl
        · exact hsf hmem

/-! ### Filesystem state -/

/-- A filesystem snapshot: regular files (path, file identity) in enumeration
order, plus existing directories. -/
structure FS where
  files : List (PPath × Nat)
  dirs : List PPath
deriving DecidableEq, Repr

/-- Association-list lookup on the file table. -/
def lookupP : List (PPath × Nat) → PPath → Option Nat
  | [], _ => none
  | (q, v) :: rest, p => if q = p then some v else lookupP rest p

/-- `Path.is_file()`. -/
def FS.isFile (fs : FS) (p : PPath) : Bool := (lookupP fs.files p).isSome

/-- `Path.is_dir()`. -/
def FS.isDir (fs : FS) (p : PPath) : Bool := decide (p ∈ fs.dirs)

/-- `Path.exists()`. -/
def FS.existsP (fs : FS) (p : PPath) : Bool := fs.isFile p || fs.isDir p

lemma lookupP_append (l1 l2 : List (PPath × Nat)) (p : PPath) :
    lookupP (l1 ++ l2) p =
      match lookupP l1 p with
      | some v => some v
      | none => lookupP l2 p := by
  induction l1 with
  | nil => rfl
  | cons e rest ih =>
    rcases e with ⟨q, v⟩
    by_cases h : q = p
    · simp [lookupP, h]
    · simp [lookupP, h, ih]

lemma lookupP_eq_none_iff (l : List (PPath × Nat)) (p : PPath) :
    lookupP l p = none ↔ p ∉ l.map Prod.fst := by
  induction l with
  | nil => simp [lookupP]
  | cons e rest ih =>
    rcases e with ⟨q, v⟩
    by_cases h : q = p
    · simp [lookupP, h]
    · simp [lookupP, h, ih, Ne.symm h]

lemma lookupP_mem {l : List (PPath × Nat)} {p : PPath} {v : Nat}
    (h : lookupP l p = some v) : (p, v) ∈ l := by
  induction l with
  | nil => simp [lookupP] at h
  | cons e rest ih =>
    rcases e with ⟨q, w⟩
    by_cases hq : q = p
    · subst hq
      have hw : w = v := by
        simp [lookupP] at h
        exact h
      subst hw
      exact List.mem_cons_self _ _
    · simp only [lookupP, if_neg hq] at h
      exact List.mem_cons_of_mem _ (ih h)

/-- Drop the binding for key `p` (used by `shutil.move` to take the source file
out of the table). -/
def removeKey : List (PPath × Nat) → PPath → List (PPath × Nat)
  | [], _ => []
  | e :: rest, p => if e.1 = p then removeKey rest p else e :: removeKey rest p

lemma lookupP_removeKey_self (l : List (PPath × Nat)) (p : PPath) :
    lookupP (removeKey l p) p = none := by
  induction l with
  | nil => rfl
  | cons e rest ih =>
    rcases e with ⟨q, v⟩
    show lookupP (if q = p then removeKey rest p else (q, v) :: removeKey rest p) p = none
    by_cases h : q = p
    · rw [if_pos h]
      exact ih
    · rw [if_neg h]
      show (if q = p then some v else lookupP (removeKey rest p) p) = none
      rw [if_neg h]
      exact ih

lemma lookupP_removeKey_ne (l : List (PPath × Nat)) {p q : PPath} (h : q ≠ p) :
    lookupP (removeKey l p) q = lookupP l q := by
  induction l with
  | nil => rfl
  | cons e rest ih =>
    rcases e with ⟨r, v⟩
    show lookupP (if r = p then removeKey rest p else (r, v) :: removeKey rest p) q =
      if r = q then some v else lookupP rest q
    by_cases hr : r = p
    · rw [if_pos hr, ih, if_neg (by rw [hr]; exact Ne.symm h)]
    · rw [if_neg hr]
      show (if r = q then some v else lookupP (removeKey rest p) q) = _
      by_cases hq : r = q
      · rw [if_pos hq, if_pos hq]
      · rw [if_neg hq, if_neg hq, ih]

lemma removeKey_sublist (l : List (PPath × Nat)) (p : PPath) :
    (removeKey l p).Sublist l := by
  induction l with
  | nil => exact List.Sublist.refl _
  | cons e rest ih =>
    show (if e.1 = p then removeKey rest p else e :: removeKey rest p).Sublist (e :: rest)
    by_cases h : e.1 = p
    · rw [if_pos h]
      exact ih.cons e
    · rw [if_neg h]
      exact ih.cons₂ e

lemma removeKey_keys_sublist (l : List (PPath × Nat)) (p : PPath) :
    ((removeKey l p).map Prod.fst).Sublist (l.map Prod.fst) :=
  (removeKey_sublist l p).map Prod.fst

lemma removeKey_subset (l : List (PPath × Nat)) (p : PPath) :
    ∀ e ∈ removeKey l p, e ∈ l := fun _ he => (removeKey_sublist l p).mem he

/-- `Path.mkdir(parents=True, exist_ok=True)`: creates every missing ancestor
directory; raises (`FileExistsError` / `NotADirectoryError`) when a regular
file occupies the target or one of its ancestors. -/
def FS.mkdirP (fs : FS) (p : PPath) : Except String FS :=
  if p.ancestors.any fs.isFile then
    .error ("FileExistsError: " ++ p.str)
  else
    .ok ⟨fs.files, fs.dirs ++ p.ancestors.filter (fun q => ! fs.isDir q)⟩

lemma FS.mkdirP_ok {fs : FS} {p : PPath} {fs' : FS}
    (h : fs.mkdirP p = .ok fs') :
    fs'.files = fs.files ∧
    (∀ q, q.ancestorOf p → fs.isFile q = false) ∧
    (∀ q, q ∈ fs.dirs → q ∈ fs'.dirs) ∧
    (∀ q, q.ancestorOf p → q ∈ fs'.dirs) ∧
    (∀ q, q ∈ fs'.dirs → q ∈ fs.dirs ∨ q.ancestorOf p) := by
  unfold FS.mkdirP at h
  by_cases hany : p.ancestors.any fs.isFile
  · rw [if_pos hany] at h
    exact absurd h (by simp)
  · rw [if_neg hany] at h
    have hfs' : fs' = ⟨fs.files, fs.dirs ++ p.ancestors.filter (fun q => ! fs.isDir q)⟩ := by
      injection h with h
      exact h.symm
    subst hfs'
    refine ⟨rfl, ?_, ?_, ?_, ?_⟩
    · intro q hq
      rw [List.any_eq_true] at hany
      push_neg at hany
      have := hany q (PPath.mem_ancestors.mpr hq)
      simp only [Bool.not_eq_true] at this
      exact this
    · intro q hq
      exact List.mem_append.mpr (Or.inl hq)
    · intro q hq
      by_cases hd : fs.isDir q
      · exact List.mem_append.mpr (Or.inl (of_decide_eq_true hd))
      · refine List.mem_append.mpr (Or.inr ?_)
        rw [List.mem_filter]
        exact ⟨PPath.mem_ancestors.mpr hq, by simp [hd]⟩
    · intro q hq
      rcases List.mem_append.mp hq with hq | hq
      · exact Or.inl hq
      · exact Or.inr (PPath.mem_ancestors.mp (List.mem_of_mem_filter hq))

/-- If the whole ancestor chain already exists as directories and the state is
consistent, `mkdir` succeeds without changing anything. -/
lemma FS.mkdirP_noop {fs : FS} {p : PPath}
    (hdirs : ∀ q, q.ancestorOf p → q ∈ fs.dirs)
    (hnof : ∀ q, q ∈ fs.dirs → fs.isFile q = false) :
    fs.mkdirP p = .ok fs := by
  unfold FS.mkdirP
  have hany : p.ancestors.any fs.isFile = false := by
    rw [List.any_eq_false]
    intro q hq
    rw [hnof q (hdirs q (PPath.mem_ancestors.mp hq))]
    simp
  rw [if_neg (by rw [hany]; simp)]
  have hfilt : p.ancestors.filter (fun q => ! fs.isDir q) = [] := by
    rw [List.filter_eq_nil_iff]
    intro q hq
    have := hdirs q (PPath.mem_ancestors.mp hq)
    simp [FS.isDir, this]
  rw [hfilt, List.append_nil]

/-- `shutil.move(src, dst)` in the regime exercised by the organizer: the
source is a regular file and the destination (always pre-checked through
`_unique_dest`) does not exist; its parent directory must exist.  Errors model
the exceptions `shutil` raises outside that regime. -/
def FS.move (fs : FS) (src dst : PPath) : Except String FS :=
  match lookupP fs.files src with
  | none => .error ("FileNotFoundError: " ++ src.str)
  | some fid =>
    if fs.existsP dst then .error ("Error: destination exists: " ++ dst.str)
    else if fs.isDir dst.parent then
      .ok ⟨removeKey fs.files src ++ [(dst, fid)], fs.dirs⟩
    else .error ("FileNotFoundError: " ++ dst.parent.str)

lemma FS.move_ok {fs : FS} {src dst : PPath} {fs' : FS}
    (h : fs.move src dst = .ok fs') :
    ∃ fid, lookupP fs.files src = some fid ∧ fs.existsP dst = false ∧
      fs.isDir dst.parent = true ∧
      fs' = ⟨removeKey fs.files src ++ [(dst, fid)], fs.dirs⟩ := by
  unfold FS.move at h
  rcases hl : lookupP fs.files src with _ | fid
  · rw [hl] at h
    exact absurd h (by simp)
  · rw [hl] at h
    dsimp only at h
    by_cases he : fs.existsP dst
    · rw [if_pos he] at h
      exact absurd h (by simp)
    · rw [if_neg he] at h
      by_cases hd : fs.isDir dst.parent
      · rw [if_pos hd] at h
        refine ⟨fid, rfl, by simp [he], hd, ?_⟩
        injection h with h
        exact h.symm
      · rw [if_neg hd] at h
        exact absurd h (by simp)

lemma FS.move_ok_dst_comps {fs : FS} {src dst : PPath} {fs' : FS}
    (h : fs.move src dst = .ok fs') : dst.comps ≠ [] := by
  obtain ⟨fid, _, hex, hdir, _⟩ := FS.move_ok h
  intro hnil
  rcases dst with ⟨a, c⟩
  rw [show PPath.comps ⟨a, c⟩ = c from rfl] at hnil
  subst hnil
  rw [show PPath.parent ⟨a, []⟩ = ⟨a, []⟩ from rfl] at hdir
  unfold FS.existsP at hex
  rw [hdir] at hex
  simp at hex

/-- `lookupP` finds the binding of any member when keys are distinct. -/
lemma lookupP_of_mem_nodup :
    ∀ {l : List (PPath × Nat)}, (l.map Prod.fst).Nodup →
      ∀ {p : PPath} {v : Nat}, (p, v) ∈ l → lookupP l p = some v := by
  intro l
  induction l with
  | nil =>
    intro _ p v h
    exact absurd h (List.not_mem_nil _)
  | cons e rest ih =>
    intro hnd p v h
    rcases e with ⟨q, w⟩
    rw [List.map_cons, List.nodup_cons] at hnd
    rcases List.mem_cons.mp h with h | h
    · have hp : p = q := congrArg Prod.fst h
      have hv : v = w := congrArg Prod.snd h
      show (if q = p then some w else lookupP rest p) = some v
      rw [if_pos hp.symm, hv]
    · have hq : q ≠ p := by
        intro he
        exact hnd.1 (he ▸ (List.mem_map.mpr ⟨(p, v), h, rfl⟩))
      show (if q = p then some w else lookupP rest p) = some v
      rw [if_neg hq]
      exact ih hnd.2 h

lemma mem_removeKey {l : List (PPath × Nat)} {p : PPath} {e : PPath × Nat} :
    e ∈ removeKey l p ↔ e ∈ l ∧ e.1 ≠ p := by
  induction l with
  | nil => simp [removeKey]
  | cons f rest ih =>
    show e ∈ (if f.1 = p then removeKey rest p else f :: removeKey rest p) ↔ _
    by_cases hf : f.1 = p
    · rw [if_pos hf, ih]
      constructor
      · rintro ⟨h1, h2⟩
        exact ⟨List.mem_cons_of_mem _ h1, h2⟩
      · rintro ⟨h1, h2⟩
        rcases List.mem_cons.mp h1 with rfl | h1
        · exact absurd hf h2
        · exact ⟨h1, h2⟩
    · rw [if_neg hf]
      constructor
      · intro h
        rcases List.mem_cons.mp h with rfl | h
        · exact ⟨List.mem_cons_self _ _, hf⟩
        · exact ⟨List.mem_cons_of_mem _ (ih.mp h).1, (ih.mp h).2⟩
      · rintro ⟨h1, h2⟩
        rcases List.mem_cons.mp h1 with rfl | h1
        · exact List.mem_cons_self _ _
        · exact List.mem_cons_of_mem _ (ih.mpr ⟨h1, h2⟩)

/-- Consistency of a filesystem snapshot: file keys are distinct, no file path
is also a directory, and files have a name. -/
structure FS.WF (fs : FS) : Prop where
  nodupKeys : (fs.files.map Prod.fst).Nodup
  filesNotDirs : ∀ e ∈ fs.files, fs.isDir e.1 = false
  filesNamed : ∀ e ∈ fs.files, e.1.comps ≠ []

lemma FS.WF.notDir {fs : FS} (h : fs.WF) {p : PPath} (hf : fs.isFile p = true) :
    fs.isDir p = false := by
  unfold FS.isFile at hf
  rcases hl : lookupP fs.files p with _ | v
  · rw [hl] at hf
    exact absurd hf (by simp)
  · exact h.filesNotDirs (p, v) (lookupP_mem hl)

/-- Every file's parent chain consists of existing directories. -/
def FS.AD (fs : FS) : Prop :=
  ∀ e ∈ fs.files, ∀ q ∈ (PPath.parent e.1).ancestors, q ∈ fs.dirs

lemma FS.isFile_eq_false_iff (fs : FS) (p : PPath) :
    fs.isFile p = false ↔ p ∉ fs.files.map Prod.fst := by
  unfold FS.isFile
  rw [← lookupP_eq_none_iff]
  cases lookupP fs.files p <;> simp

lemma FS.mkdirP_WF {fs : FS} {p : PPath} {fs' : FS}
    (h : fs.mkdirP p = .ok fs') (hwf : fs.WF) : fs'.WF := by
  obtain ⟨hfiles, hnof, _, _, hsub⟩ := FS.mkdirP_ok h
  refine ⟨?_, ?_, ?_⟩
  · rw [hfiles]
    exact hwf.nodupKeys
  · intro e he
    rw [hfiles] at he
    rw [Bool.eq_false_iff]
    intro hd
    rcases hsub e.1 (of_decide_eq_true hd) with hmem | hanc
    · have := hwf.filesNotDirs e he
      unfold FS.isDir at this
      rw [decide_eq_false_iff_not] at this
      exact this hmem
    · have hfile : fs.isFile e.1 = true := by
        unfold FS.isFile
        rw [lookupP_of_mem_nodup hwf.nodupKeys he]
        rfl
      rw [hnof e.1 hanc] at hfile
      exact absurd hfile (by simp)
  · intro e he
    rw [hfiles] at he
    exact hwf.filesNamed e he

lemma FS.mkdirP_AD {fs : FS} {p : PPath} {fs' : FS}
    (h : fs.mkdirP p = .ok fs') (had : fs.AD) : fs'.AD := by
  obtain ⟨hfiles, _, hmono, _, _⟩ := FS.mkdirP_ok h
  intro e he q hq
  rw [hfiles] at he
  exact hmono q (had e he q hq)

/-! ### `_unique_dest`: collision-safe renaming -/

/-- The `while True` search of `_unique_dest`, with fuel (one more than the
number of occupied paths always suffices, see `uniqueDestAux_spec`). -/
def uniqueDestAux (fs : FS) (par : PPath) (st sf : String) : Nat → Nat → PPath
  | 0, k => par.join (candName st sf k)
  | fuel + 1, k =>
    let c := par.join (candName st sf k)
    if fs.existsP c then uniqueDestAux fs par st sf fuel (k + 1) else c

/-- `_unique_dest(dest)`: return `dest` if nothing exists there, else append
`_1`, `_2`, … before the extension until an unused name is found. -/
def FS.uniqueDest (fs : FS) (dest : PPath) : PPath :=
  if fs.existsP dest then
    uniqueDestAux fs dest.parent dest.stem dest.suffix
      (fs.files.length + fs.dirs.length + 1) 1
  else dest

lemma PPath.name_no_slash (p : PPath) (hp : p.NF) : '/' ∉ p.name.data := by
  unfold PPath.name
  rcases hg : p.comps.getLast? with _ | s
  · show '/' ∉ ("" : String).data
    simp
  · show '/' ∉ s.data
    have hs : s ∈ p.comps := by
      obtain ⟨hne, heq⟩ := List.mem_getLast?_eq_getLast
        (show s ∈ p.comps.getLast? from by rw [hg]; rfl)
      rw [heq]
      exact List.getLast_mem hne
    exact (hp s hs).2.2

lemma uniqueDest_cand_good (dest : PPath) (hns : '/' ∉ dest.name.data) (k : Nat) :
    goodComp (candName dest.stem dest.suffix k) :=
  candName_good _ _ k (fun h => hns (nameStemData_subset _ _ h))
    (fun h => hns (nameSuffixData_subset _ _ h))

/-- All paths that exist in a snapshot. -/
def FS.occupied (fs : FS) : List PPath := fs.files.map Prod.fst ++ fs.dirs

lemma FS.existsP_mem_occupied {fs : FS} {p : PPath} (h : fs.existsP p = true) :
    p ∈ fs.occupied := by
  unfold FS.existsP at h
  rw [Bool.or_eq_true] at h
  rcases h with h | h
  · refine List.mem_append.mpr (Or.inl ?_)
    by_contra hmem
    rw [← FS.isFile_eq_false_iff] at hmem
    rw [h] at hmem
    exact absurd hmem (by simp)
  · exact List.mem_append.mpr (Or.inr (of_decide_eq_true h))

lemma FS.occupied_length (fs : FS) :
    fs.occupied.length = fs.files.length + fs.dirs.length := by
  unfold FS.occupied
  simp

lemma cand_path_inj (par : PPath) (st sf : String)
    (hgood : ∀ k, goodComp (candName st sf k)) {j k : Nat}
    (h : par.join (candName st sf j) = par.join (candName st sf k)) : j = k := by
  rw [PPath.join_single _ _ (hgood j), PPath.join_single _ _ (hgood k)] at h
  have hc : par.comps ++ [candName st sf j] = par.comps ++ [candName st sf k] := by
    injection h
  have := List.append_cancel_left hc
  exact candName_inj st sf (by injection this)

/-- Within any window of `|occupied| + 1` consecutive candidate indices there is
a free candidate. -/
lemma uniqueDest_adequacy (fs : FS) (par : PPath) (st sf : String)
    (hgood : ∀ k, goodComp (candName st sf k)) (start : Nat) :
    ∃ j, start ≤ j ∧ j < start + (fs.files.length + fs.dirs.length + 1) ∧
      fs.existsP (par.join (candName st sf j)) = false := by
  by_contra hno
  push_neg at hno
  have hall : ∀ j, start ≤ j → j < start + (fs.files.length + fs.dirs.length + 1) →
      fs.existsP (par.join (candName st sf j)) = true := by
    intro j h1 h2
    have := hno j h1 h2
    revert this
    cases fs.existsP (par.join (candName st sf j)) <;> simp
  have hmap : ∀ j ∈ Finset.Icc start (start + fs.files.length + fs.dirs.length),
      par.join (candName st sf j) ∈ fs.occupied.toFinset := by
    intro j hj
    rw [Finset.mem_Icc] at hj
    rw [List.mem_toFinset]
    exact FS.existsP_mem_occupied (hall j hj.1 (by omega))
  have hinj : Set.InjOn (fun j => par.join (candName st sf j))
      (Finset.Icc start (start + fs.files.length + fs.dirs.length)) := by
    intro a _ b _ hab
    exact cand_path_inj par st sf hgood hab
  have hcard := Finset.card_le_card_of_injOn _ hmap hinj
  rw [Nat.card_Icc] at hcard
  have hlen := fs.occupied.toFinset_card_le
  rw [FS.occupied_length] at hlen
  omega

lemma uniqueDestAux_spec (fs : FS) (par : PPath) (st sf : String) :
    ∀ fuel start,
      (∃ j, start ≤ j ∧ j < start + fuel ∧
        fs.existsP (par.join (candName st sf j)) = false) →
      ∃ k, start ≤ k ∧
        uniqueDestAux fs par st sf fuel start = par.join (candName st sf k) ∧
        fs.existsP (par.join (candName st sf k)) = false ∧
        ∀ j, start ≤ j → j < k →
          fs.existsP (par.join (candName st sf j)) = true := by
  intro fuel
  induction fuel with
  | zero =>
    intro start h
    obtain ⟨j, h1, h2, _⟩ := h
    omega
  | succ fuel ih =>
    intro start h
    by_cases hex : fs.existsP (par.join (candName st sf start)) = true
    · have hstep : uniqueDestAux fs par st sf (fuel + 1) start =
          uniqueDestAux fs par st sf fuel (start + 1) := by
        show (if fs.existsP (par.join (candName st sf start)) = true
          then uniqueDestAux fs par st sf fuel (start + 1)
          else par.join (candName st sf start)) = _
        rw [if_pos hex]
      obtain ⟨j, h1, h2, h3⟩ := h
      have hj1 : start + 1 ≤ j := by
        rcases Nat.eq_or_lt_of_le h1 with rfl | h
        · rw [hex] at h3
          exact absurd h3 (by simp)
        · omega
      obtain ⟨k, hk1, hk2, hk3, hk4⟩ := ih (start + 1) ⟨j, hj1, by omega, h3⟩
      refine ⟨k, by omega, hstep ▸ hk2, hk3, ?_⟩
      intro j' hj'1 hj'2
      rcases Nat.eq_or_lt_of_le hj'1 with rfl | h
      · exact hex
      · exact hk4 j' (by omega) hj'2
    · have hex' : fs.existsP (par.join (candName st sf start)) = false := by
        revert hex
        cases fs.existsP (par.join (candName st sf start)) <;> simp
      refine ⟨start, le_refl _, ?_, hex', by omega⟩
      show (if fs.existsP (par.join (candName st sf start)) = true
        then uniqueDestAux fs par st sf fuel (start + 1)
        else par.join (candName st sf start)) = _
      rw [if_neg (by rw [hex']; simp)]

/-- Characterization of `_unique_dest` when the destination is occupied:
the result is the candidate with the least index `k ≥ 1` whose name is unused. -/
lemma FS.uniqueDest_spec (fs : FS) (dest : PPath) (hns : '/' ∉ dest.name.data)
    (hex : fs.existsP dest = true) :
    ∃ k, 1 ≤ k ∧
      fs.uniqueDest dest = dest.parent.join (candName dest.stem dest.suffix k) ∧
      fs.existsP (fs.uniqueDest dest) = false ∧
      ∀ j, 1 ≤ j → j < k →
        fs.existsP (dest.parent.join (candName dest.stem dest.suffix j)) = true := by
  have hgood := uniqueDest_cand_good dest hns
  obtain ⟨j, hj1, hj2, hj3⟩ :=
    uniqueDest_adequacy fs dest.parent dest.stem dest.suffix hgood 1
  obtain ⟨k, hk1, hk2, hk3, hk4⟩ :=
    uniqueDestAux_spec fs dest.parent dest.stem dest.suffix
      (fs.files.length + fs.dirs.length + 1) 1 ⟨j, hj1, hj2, hj3⟩
  have hud : fs.uniqueDest dest =
      uniqueDestAux fs dest.parent dest.stem dest.suffix
        (fs.files.length + fs.dirs.length + 1) 1 := by
    unfold FS.uniqueDest
    rw [if_pos hex]
  refine ⟨k, hk1, ?_, ?_, hk4⟩
  · rw [hud, hk2]
  · rw [hud, hk2]
    exact hk3

lemma FS.uniqueDest_not_exists (fs : FS) (dest : PPath)
    (hex : fs.existsP dest = false) : fs.uniqueDest dest = dest := by
  unfold FS.uniqueDest
  rw [if_neg (by rw [hex]; simp)]

lemma FS.uniqueDest_free (fs : FS) (dest : PPath) (hns : '/' ∉ dest.name.data) :
    fs.existsP (fs.uniqueDest dest) = false := by
  by_cases hex : fs.existsP dest = true
  · obtain ⟨k, _, _, hfree, _⟩ := fs.uniqueDest_spec dest hns hex
    exact hfree
  · have hex' : fs.existsP dest = false := by
      revert hex
      cases fs.existsP dest <;> simp
    rw [fs.uniqueDest_not_exists dest hex']
    exact hex'

lemma PPath.parent_join_single (p : PPath) (s : String) (hs : goodComp s) :
    (p.join s).parent = p := by
  rw [PPath.join_single p s hs]
  show PPath.mk p.abs ((p.comps ++ [s]).dropLast) = p
  rw [List.dropLast_concat]

lemma FS.uniqueDest_parent (fs : FS) (dest : PPath) (hns : '/' ∉ dest.name.data) :
    (fs.uniqueDest dest).parent = dest.parent := by
  by_cases hex : fs.existsP dest = true
  · obtain ⟨k, _, heq, _, _⟩ := fs.uniqueDest_spec dest hns hex
    rw [heq]
    exact PPath.parent_join_single _ _ (uniqueDest_cand_good dest hns k)
  · have hex' : fs.existsP dest = false := by
      revert hex
      cases fs.existsP dest <;> simp
    rw [fs.uniqueDest_not_exists dest hex']

lemma PPath.parent_NF (p : PPath) (hp : p.NF) : p.parent.NF := by
  intro s hs
  exact hp s (List.dropLast_subset _ hs)

lemma FS.uniqueDest_NF (fs : FS) (dest : PPath) (hdest : dest.NF) :
    (fs.uniqueDest dest).NF := by
  have hns := PPath.name_no_slash dest hdest
  by_cases hex : fs.existsP dest = true
  · obtain ⟨k, _, heq, _, _⟩ := fs.uniqueDest_spec dest hns hex
    rw [heq]
    exact PPath.join_NF _ _ (PPath.parent_NF dest hdest)
  · have hex' : fs.existsP dest = false := by
      revert hex
      cases fs.existsP dest <;> simp
    rw [fs.uniqueDest_not_exists dest hex']
    exact hdest

lemma PPath.parent_comps_take {p : PPath} (i : Nat) (hi : i + 1 ≤ p.comps.length) :
    p.parent.comps.take i = p.comps.take i := by
  show p.comps.dropLast.take i = p.comps.take i
  rw [List.dropLast_eq_take, List.take_take]
  congr 1
  omega

lemma PPath.ancestorOf_cases {r q : PPath} (h : r.ancestorOf q) :
    r = q ∨ r.ancestorOf q.parent := by
  obtain ⟨hab, hcomps⟩ := h
  have hlen : r.comps.length ≤ q.comps.length := by
    have := congrArg List.length hcomps
    rw [List.length_take] at this
    omega
  rcases Nat.eq_or_lt_of_le hlen with heq | hlt
  · left
    have : r.comps = q.comps := by
      rw [hcomps, heq, List.take_length]
    rcases r with ⟨ra, rc⟩
    rcases q with ⟨qa, qc⟩
    simp only at hab this
    rw [hab, this]
  · right
    refine ⟨hab, ?_⟩
    rw [PPath.parent_comps_take _ (by omega)]
    exact hcomps

/-! ### Rule Store (`load_config` / `DEFAULT_CONFIG`) -/

/-- One entry of the `categories` mapping (Python dicts preserve insertion
order, so the mapping is a list). -/
structure Category where
  name : String
  extensions : List String
  destination : String
deriving DecidableEq, Repr

/-- The in-memory configuration (feature flags consumed only by the excluded
GUI layer are not modelled). -/
structure Config where
  categories : List Category
  others_destination : String
  default_destination : String
deriving DecidableEq, Repr

/-- A parsed configuration record, whose `categories` key may be missing. -/
structure RawConfig where
  categories : Option (List Category)
  others_destination : String
  default_destination : String
deriving DecidableEq, Repr

/-- The persisted configuration file: absent, unparseable JSON, or parsed. -/
inductive StoredConfig where
  | absent
  | malformed (text : String)
  | parsed (raw : RawConfig)
deriving DecidableEq, Repr

/-- `DEFAULT_CONFIG` of `v1/organizer.py` (flags dropped). -/
def DEFAULT_CONFIG_V1 : Config :=
  { categories :=
      [ { name := "Images",
          extensions := [".jpg", ".jpeg", ".png", ".gif", ".bmp", ".svg", ".webp"],
          destination := "" },
        { name := "Videos",
          extensions := [".mp4", ".mkv", ".mov", ".avi", ".webm"],
          destination := "" },
        { name := "Documents",
          extensions := [".pdf", ".docx", ".doc", ".txt", ".pptx", ".xlsx", ".odt"],
          destination := "" },
        { name := "Archives",
          extensions := [".zip", ".rar", ".tar", ".gz", ".7z"],
          destination := "" },
        { name := "Code",
          extensions := [".py", ".js", ".java", ".cpp", ".c", ".cs", ".html", ".css"],
          destination := "" } ],
    others_destination := "",
    default_destination := "" }

/-- `DEFAULT_CONFIG` of `v2/organizer.py`. -/
def DEFAULT_CONFIG_V2 : Config :=
  { categories :=
      [ { name := "Images", extensions := [".jpg", ".jpeg", ".png"], destination := "" },
        { name := "Videos", extensions := [".mp4", ".mkv"], destination := "" },
        { name := "Documents", extensions := [".pdf", ".docx", ".txt"], destination := "" } ],
    others_destination := "",
    default_destination := "" }

/-- `v1.load_config`: no `try` around `json.load`, so a malformed record makes
the parse exception propagate (`.error`).  An absent file writes and returns
the default; a parsed record only has its `categories` key defaulted. -/
def load_config_v1 : StoredConfig → Except String Config
  | .absent => .ok DEFAULT_CONFIG_V1
  | .malformed _ => .error "json.decoder.JSONDecodeError"
  | .parsed raw =>
    .ok { categories := raw.categories.getD DEFAULT_CONFIG_V1.categories,
          others_destination := raw.others_destination,
          default_destination := raw.default_destination }

/-- `v2.load_config`: the read/parse is wrapped in `try`, a malformed record is
logged and the built-in default returned. -/
def load_config_v2 : StoredConfig → Config
  | .absent => DEFAULT_CONFIG_V2
  | .malformed _ => DEFAULT_CONFIG_V2
  | .parsed raw =>
    { categories := raw.categories.getD DEFAULT_CONFIG_V2.categories,
      others_destination := raw.others_destination,
      default_destination := raw.default_destination }

/-! ### Plan Builder (`categorize_file` / `build_preview`) -/

/-- Python's `str.lower()` (character-wise, which agrees with it on the ASCII
extension strings the organizer compares). -/
def strLower (s : String) : String := String.mk (s.data.map Char.toLower)

/-- `categorize_file` (identical logic in v1 and v2): first rule, in insertion
order, whose lowercased extension list contains the file's lowercased suffix;
unmatched files get `("Others", Path(others_destination or ""))`. -/
def categorize_file (file : PPath) (cfg : Config) : String × PPath :=
  match cfg.categories.find? (fun c =>
      decide (strLower file.suffix ∈ c.extensions.map strLower)) with
  | some c => (c.name, pyPath c.destination)
  | none => ("Others", pyPath cfg.others_destination)

/-- One proposed move, exactly the dict `{src, category, planned_dest}`. -/
structure PlanEntry where
  src : String
  category : String
  planned_dest : String
deriving DecidableEq, Repr

/-- `Path.iterdir()`: the direct children of `p` (files first, then
directories, in table order — enumeration order is filesystem-defined). -/
def FS.children (fs : FS) (p : PPath) : List PPath :=
  (fs.files.map Prod.fst ++ fs.dirs).filter
    (fun q => decide (q.abs = p.abs ∧ q.comps.dropLast = p.comps ∧ q.comps ≠ []))

/-- `v1.build_preview`.  A missing source is skipped (`continue`); a source
that exists but is not a directory makes `iterdir()` raise
`NotADirectoryError`, which propagates.  The filesystem is threaded through to
make the read-only frame property statable. -/
def build_preview_v1 : List PPath → Config → FS → Except String (List PlanEntry × FS)
  | [], _, fs => .ok ([], fs)
  | source :: rest, cfg, fs =>
    if fs.existsP source = false then build_preview_v1 rest cfg fs
    else if fs.isDir source = false then
      .error ("NotADirectoryError: " ++ source.str)
    else
      let entries := ((fs.children source).filter fs.isFile).map (fun item =>
        let cd := categorize_file item cfg
        -- `if dest_root and dest_root.is_absolute()`: `bool(Path)` is always
        -- `True`, so the test reduces to `is_absolute()`
        let target_folder := if cd.2.abs then cd.2.join cd.1 else source.join cd.1
        { src := item.str, category := cd.1,
          planned_dest := (target_folder.join item.name).str })
      match build_preview_v1 rest cfg fs with
      | .error e => .error e
      | .ok (restPlan, fs') => .ok (entries ++ restPlan, fs')

/-- The `fallback_root` of `v2.build_preview`. -/
def fallback_root (home : PPath) (cfg : Config) : PPath :=
  pyPath (if cfg.others_destination ≠ "" then cfg.others_destination
    else if cfg.default_destination ≠ "" then cfg.default_destination
    else (home.join "Organized").str)

/-- The nested `resolve_dest` of `v2.build_preview`: keep the categorized root
whenever `str(root)` is nonempty (which, since `str(Path(""))` is `"."`, is
always). -/
def resolve_dest (home : PPath) (cfg : Config) (file : PPath) : String × PPath :=
  let cd := categorize_file file cfg
  (cd.1, if cd.2.str ≠ "" then cd.2 else fallback_root home cfg)

/-- `v2.build_preview`: skips any source that is not a directory, joins the
resolved root directly with the file name (no category subfolder).
`Path.home()` is passed explicitly. -/
def build_preview_v2 (home : PPath) : List PPath → Config → FS → List PlanEntry × FS
  | [], _, fs => ([], fs)
  | folder :: rest, cfg, fs =>
    if fs.isDir folder = false then build_preview_v2 home rest cfg fs
    else
      let entries := ((fs.children folder).filter fs.isFile).map (fun file =>
        let cd := resolve_dest home cfg file
        { src := file.str, category := cd.1,
          planned_dest := (cd.2.join file.name).str })
      let r := build_preview_v2 home rest cfg fs
      (entries ++ r.1, r.2)

/-! ### Move Executor (`perform_moves`) and Undo (`undo_last_run`) -/

/-- One successful move, the dict `{src, dest}` persisted in `last_run.json`. -/
structure MoveRec where
  src : String
  dest : String
deriving DecidableEq, Repr

/-- The persisted `last_run.json` record. -/
structure RunLog where
  timestamp : String
  moves : List MoveRec
deriving DecidableEq, Repr

/-- Mutable state of the executor: the filesystem plus the (at most one)
persisted run log. -/
structure St where
  fs : FS
  lastRun : Option RunLog
deriving DecidableEq, Repr

/-- The per-entry loop of `perform_moves`, shared between the two variants via
the destination expression `destOf` (v1 recomputes `dest_dir / src.name`, v2
uses the planned path).  `mkdir` runs outside the `try`, so its failure
propagates; a failed `shutil.move` is logged and the entry skipped. -/
def performLoop (destOf : PlanEntry → PPath) :
    List PlanEntry → FS → Except String (List MoveRec × FS)
  | [], fs => .ok ([], fs)
  | entry :: rest, fs =>
    let src := pyPath entry.src
    let dest_dir := (pyPath entry.planned_dest).parent
    match fs.mkdirP dest_dir with
    | .error e => .error e
    | .ok fs1 =>
      let safe_dest := fs1.uniqueDest (destOf entry)
      match fs1.move src safe_dest with
      | .ok fs2 =>
        match performLoop destOf rest fs2 with
        | .error e => .error e
        | .ok (performed, fs') =>
          .ok ({ src := src.str, dest := safe_dest.str } :: performed, fs')
      | .error _ => performLoop destOf rest fs1

/-- `dest = dest_dir / src.name` (v1, line 153). -/
def destOfV1 (entry : PlanEntry) : PPath :=
  (pyPath entry.planned_dest).parent.join (pyPath entry.src).name

/-- `dest = Path(entry["planned_dest"])` (v2, line 112). -/
def destOfV2 (entry : PlanEntry) : PPath := pyPath entry.planned_dest

/-- `v1.perform_moves`: run the loop, then overwrite `last_run.json` iff at
least one move was performed. -/
def perform_moves_v1 (plan : List PlanEntry) (now : String) (st : St) :
    Except String (List MoveRec × St) :=
  match performLoop destOfV1 plan st.fs with
  | .error e => .error e
  | .ok (performed, fs') =>
    .ok (performed,
      { fs := fs',
        lastRun := if performed.isEmpty then st.lastRun
          else some { timestamp := now, moves := performed } })

/-- `v2.perform_moves`. -/
def perform_moves_v2 (plan : List PlanEntry) (now : String) (st : St) :
    Except String (List MoveRec × St) :=
  match performLoop destOfV2 plan st.fs with
  | .error e => .error e
  | .ok (performed, fs') =>
    .ok (performed,
      { fs := fs',
        lastRun := if performed.isEmpty then st.lastRun
          else some { timestamp := now, moves := performed } })

/-- The per-record loop of `undo_last_run`, over the reversed move list.
In v1 (`strict = true`) the `mkdir` of the original parent runs before the
`try`, so its failure propagates; in v2 (`strict = false`) it is inside the
`try` and is accumulated like a move failure.  v1's
`_unique_dest(dest) if dest.exists() else dest` equals `_unique_dest(dest)`
(v2's form) by definition of `_unique_dest`. -/
def undoLoop (strict : Bool) : List MoveRec → FS → Except String (FS × List String)
  | [], fs => .ok (fs, [])
  | mv :: rest, fs =>
    let src := pyPath mv.dest
    let dest := pyPath mv.src
    match fs.mkdirP dest.parent with
    | .error e =>
      if strict then .error e
      else
        match undoLoop strict rest fs with
        | .error e2 => .error e2
        | .ok (fs', fails) =>
          .ok (fs', (src.str ++ " -> " ++ dest.str ++ ": " ++ e) :: fails)
    | .ok fs1 =>
      let final_dest := fs1.uniqueDest dest
      match fs1.move src final_dest with
      | .ok fs2 => undoLoop strict rest fs2
      | .error e =>
        match undoLoop strict rest fs1 with
        | .error e2 => .error e2
        | .ok (fs', fails) =>
          .ok (fs', (src.str ++ " -> " ++ dest.str ++ ": " ++ e) :: fails)

/-- `"Undid {len(moves)} moves."` -/
def undidMsg (n : Nat) : String := "Undid " ++ String.mk (natDecimal n) ++ " moves."

/-- The v2 failure header `"Some undo's failed:\n"` (apostrophe spelled via its
code point). -/
def v2FailHeader : String := "Some undo" ++ String.mk [Char.ofNat 39] ++ "s failed:\n"

/-- `v1.undo_last_run`. -/
def undo_last_run_v1 (st : St) : Except String (Bool × String × St) :=
  match st.lastRun with
  | none => .ok (false, "No last run recorded.", st)
  | some log =>
    match undoLoop true log.moves.reverse st.fs with
    | .error e => .error e
    | .ok (fs', fails) =>
      if fails.isEmpty then
        .ok (true, undidMsg log.moves.length, { fs := fs', lastRun := none })
      else
        .ok (false, "Some files failed to undo:\n" ++ String.intercalate "\n" fails,
          { fs := fs', lastRun := some log })

/-- `v2.undo_last_run`. -/
def undo_last_run_v2 (st : St) : Except String (Bool × String × St) :=
  match st.lastRun with
  | none => .ok (false, "No last run recorded.", st)
  | some log =>
    match undoLoop false log.moves.reverse st.fs with
    | .error e => .error e
    | .ok (fs', fails) =>
      if fails.isEmpty then
        .ok (true, undidMsg log.moves.length, { fs := fs', lastRun := none })
      else
        .ok (false, v2FailHeader ++ String.intercalate "\n" fails,
          { fs := fs', lastRun := some log })

/-! ### Claims -/

/-- C2 (counterexample): on a malformed persisted record, `v1.load_config` does
raise — the embedded function returns the propagated parse exception, not a
`RuleSet`. -/
theorem c2_counterexample :
    load_config_v1 (.malformed "not json") = .error "json.decoder.JSONDecodeError" ∧
    (load_config_v1 (.malformed "not json")).isOk = false :=
  ⟨rfl, rfl⟩

/-- C2 (amended): for every malformed persisted record, `v2.load_config`
returns the built-in default without raising, while `v1.load_config` (which has
no handler around `json.load`) propagates the parse exception. -/
theorem c2_amended (s : String) :
    load_config_v2 (.malformed s) = DEFAULT_CONFIG_V2 ∧
    load_config_v1 (.malformed s) = .error "json.decoder.JSONDecodeError" :=
  ⟨rfl, rfl⟩

/-- C4: `categorize_file` assigns the category of the first rule in insertion
order whose (lowercased) extension set contains the file's lowercased suffix,
and the literal category `"Others"` when no rule matches. -/
theorem c4_first_match (file : PPath) (cfg : Config) :
    (∀ pre r post,
      cfg.categories = pre ++ r :: post →
      strLower file.suffix ∈ r.extensions.map strLower →
      (∀ r' ∈ pre, strLower file.suffix ∉ r'.extensions.map strLower) →
      categorize_file file cfg = (r.name, pyPath r.destination)) ∧
    ((∀ r ∈ cfg.categories, strLower file.suffix ∉ r.extensions.map strLower) →
      categorize_file file cfg = ("Others", pyPath cfg.others_destination)) := by
  constructor
  · intro pre r post hcat hr hpre
    unfold categorize_file
    rw [hcat]
    rw [List.find?_append]
    have hprenone : pre.find? (fun c =>
        decide (strLower file.suffix ∈ c.extensions.map strLower)) = none := by
      rw [List.find?_eq_none]
      intro x hx
      simp only [decide_eq_true_eq]
      exact hpre x hx
    rw [hprenone]
    rw [List.find?_cons_of_pos _ (by simpa using hr)]
    rfl
  · intro hall
    unfold categorize_file
    have hnone : cfg.categories.find? (fun c =>
        decide (strLower file.suffix ∈ c.extensions.map strLower)) = none := by
      rw [List.find?_eq_none]
      intro x hx
      simp only [decide_eq_true_eq]
      exact hall x hx
    rw [hnone]

/-- C4 (witness): with two rules both claiming `.pdf`, the earlier-inserted
rule wins; an unmatched file gets `"Others"`. -/
theorem c4_first_match_witness :
    categorize_file (pyPath "/f/x.pdf")
        ⟨[⟨"A", [".pdf"], ""⟩, ⟨"B", [".pdf"], ""⟩], "", ""⟩ = ("A", pyPath "") ∧
    categorize_file (pyPath "/f/x.xyz")
        ⟨[⟨"A", [".pdf"], ""⟩, ⟨"B", [".pdf"], ""⟩], "", ""⟩ = ("Others", pyPath "") :=
  ⟨(c4_first_match (pyPath "/f/x.pdf") _).1 [] ⟨"A", [".pdf"], ""⟩ [⟨"B", [".pdf"], ""⟩]
      rfl (by decide) (by simp),
    (c4_first_match (pyPath "/f/x.xyz") _).2 (by decide)⟩

/-- C7: after a `perform_moves` call that returns normally, the run log is
overwritten with exactly the successful records and the current timestamp when
at least one move succeeded, and is left untouched when none did (both
variants). -/
theorem c7_runlog_update (plan : List PlanEntry) (now : String) (st : St)
    {r1 r2 : List MoveRec} {s1 s2 : St}
    (h1 : perform_moves_v1 plan now st = .ok (r1, s1))
    (h2 : perform_moves_v2 plan now st = .ok (r2, s2)) :
    ((r1 ≠ [] → s1.lastRun = some ⟨now, r1⟩) ∧ (r1 = [] → s1.lastRun = st.lastRun)) ∧
    ((r2 ≠ [] → s2.lastRun = some ⟨now, r2⟩) ∧ (r2 = [] → s2.lastRun = st.lastRun)) := by
  constructor
  · unfold perform_moves_v1 at h1
    rcases hl : performLoop destOfV1 plan st.fs with e | ⟨performed, fs'⟩
    · rw [hl] at h1
      exact absurd h1 (by simp)
    · rw [hl] at h1
      dsimp only at h1
      have hr : r1 = performed ∧ s1 = St.mk fs'
          (if performed.isEmpty then st.lastRun
            else some (RunLog.mk now performed)) := by
        have := h1
        injection this with this
        injection this with ha hb
        exact ⟨ha.symm, hb.symm⟩
      obtain ⟨rfl, rfl⟩ := hr
      constructor
      · intro hne
        show (if r1.isEmpty then st.lastRun else some ⟨now, r1⟩) = some ⟨now, r1⟩
        rw [if_neg (by simpa using hne)]
      · intro hnil
        show (if r1.isEmpty then st.lastRun else some ⟨now, r1⟩) = st.lastRun
        rw [if_pos (by simpa using hnil)]
  · unfold perform_moves_v2 at h2
    rcases hl : performLoop destOfV2 plan st.fs with e | ⟨performed, fs'⟩
    · rw [hl] at h2
      exact absurd h2 (by simp)
    · rw [hl] at h2
      dsimp only at h2
      have hr : r2 = performed ∧ s2 = St.mk fs'
          (if performed.isEmpty then st.lastRun
            else some (RunLog.mk now performed)) := by
        have := h2
        injection this with this
        injection this with ha hb
        exact ⟨ha.symm, hb.symm⟩
      obtain ⟨rfl, rfl⟩ := hr
      constructor
      · intro hne
        show (if r2.isEmpty then st.lastRun else some ⟨now, r2⟩) = some ⟨now, r2⟩
        rw [if_neg (by simpa using hne)]
      · intro hnil
        show (if r2.isEmpty then st.lastRun else some ⟨now, r2⟩) = st.lastRun
        rw [if_pos (by simpa using hnil)]

lemma performLoop_srcs (destOf : PlanEntry → PPath) :
    ∀ (plan : List PlanEntry) (fs : FS) (recs : List MoveRec) (fs' : FS),
      performLoop destOf plan fs = .ok (recs, fs') →
      (recs.map (fun r => r.src)).Sublist (plan.map (fun e => (pyPath e.src).str)) := by
  intro plan
  induction plan with
  | nil =>
    intro fs recs fs' h
    have : recs = [] := by
      unfold performLoop at h
      injection h with h
      injection h with h
      exact h.symm
    rw [this]
    exact List.nil_sublist _
  | cons entry rest ih =>
    intro fs recs fs' h
    unfold performLoop at h
    dsimp only at h
    rcases hm : fs.mkdirP (pyPath entry.planned_dest).parent with e | fs1
    · rw [hm] at h
      exact absurd h (by simp)
    · rw [hm] at h
      dsimp only at h
      rcases hmv : fs1.move (pyPath entry.src) (fs1.uniqueDest (destOf entry)) with e | fs2
      · rw [hmv] at h
        dsimp only at h
        have hsub := ih fs1 recs fs' h
        rw [List.map_cons]
        exact hsub.cons _
      · rw [hmv] at h
        dsimp only at h
        rcases hr : performLoop destOf rest fs2 with e | pr
        · rw [hr] at h
          exact absurd h (by simp)
        · rw [hr] at h
          rcases pr with ⟨performed, fsX⟩
          dsimp only at h
          have hrecs : recs = MoveRec.mk (pyPath entry.src).str
              (fs1.uniqueDest (destOf entry)).str :: performed := by
            injection h with h
            injection h with ha _
            exact ha.symm
          rw [hrecs, List.map_cons, List.map_cons]
          exact (ih fs2 performed fsX (by rw [hr])).cons₂ _

lemma performLoop_srcs_paths (destOf : PlanEntry → PPath)
    (plan : List PlanEntry) (fs : FS) (recs : List MoveRec) (fs' : FS)
    (h : performLoop destOf plan fs = .ok (recs, fs')) :
    (recs.map (fun r => pyPath r.src)).Sublist (plan.map (fun e => pyPath e.src)) := by
  have h1 := (performLoop_srcs destOf plan fs recs fs' h).map pyPath
  rw [List.map_map, List.map_map] at h1
  have h2 : plan.map (pyPath ∘ fun e => (pyPath e.src).str) =
      plan.map (fun e => pyPath e.src) := by
    apply List.map_congr_left
    intro e _
    exact pyPath_str (pyPath e.src) (pyPath_NF e.src)
  rw [h2] at h1
  exact h1

/-- C10: the records returned by `perform_moves` (and persisted as the run
log's `moves`) list the successful entries in plan order, each record's
original path being the corresponding entry's source path (as paths always;
as strings whenever the plan's source strings are in `str(Path(...))` normal
form, which holds for every plan `build_preview` produces). -/
theorem c10_record_order (plan : List PlanEntry) (now : String) (st : St)
    {r1 r2 : List MoveRec} {s1 s2 : St}
    (h1 : perform_moves_v1 plan now st = .ok (r1, s1))
    (h2 : perform_moves_v2 plan now st = .ok (r2, s2)) :
    ((r1.map (fun r => pyPath r.src)).Sublist (plan.map (fun e => pyPath e.src)) ∧
      (r1.map (fun r => r.src)).Sublist (plan.map (fun e => (pyPath e.src).str)) ∧
      ((∀ e ∈ plan, (pyPath e.src).str = e.src) →
        (r1.map (fun r => r.src)).Sublist (plan.map (fun e => e.src))) ∧
      (r1 ≠ [] → s1.lastRun = some ⟨now, r1⟩)) ∧
    ((r2.map (fun r => pyPath r.src)).Sublist (plan.map (fun e => pyPath e.src)) ∧
      (r2.map (fun r => r.src)).Sublist (plan.map (fun e => (pyPath e.src).str)) ∧
      ((∀ e ∈ plan, (pyPath e.src).str = e.src) →
        (r2.map (fun r => r.src)).Sublist (plan.map (fun e => e.src))) ∧
      (r2 ≠ [] → s2.lastRun = some ⟨now, r2⟩)) := by
  have hlog := c7_runlog_update plan now st h1 h2
  unfold perform_moves_v1 at h1
  unfold perform_moves_v2 at h2
  constructor
  · rcases hl : performLoop destOfV1 plan st.fs with e | ⟨performed, fs'⟩
    · rw [hl] at h1
      exact absurd h1 (by simp)
    · rw [hl] at h1
      dsimp only at h1
      have hr : r1 = performed := by
        injection h1 with h1
        injection h1 with ha _
        exact ha.symm
      subst hr
      refine ⟨performLoop_srcs_paths destOfV1 plan st.fs r1 fs' hl,
        performLoop_srcs destOfV1 plan st.fs r1 fs' hl, ?_, hlog.1.1⟩
      intro hnorm
      have := performLoop_srcs destOfV1 plan st.fs r1 fs' hl
      rwa [List.map_congr_left (fun e he => hnorm e he)] at this
  · rcases hl : performLoop destOfV2 plan st.fs with e | ⟨performed, fs'⟩
    · rw [hl] at h2
      exact absurd h2 (by simp)
    · rw [hl] at h2
      dsimp only at h2
      have hr : r2 = performed := by
        injection h2 with h2
        injection h2 with ha _
        exact ha.symm
      subst hr
      refine ⟨performLoop_srcs_paths destOfV2 plan st.fs r2 fs' hl,
        performLoop_srcs destOfV2 plan st.fs r2 fs' hl, ?_, hlog.2.1⟩
      intro hnorm
      have := performLoop_srcs destOfV2 plan st.fs r2 fs' hl
      rwa [List.map_congr_left (fun e he => hnorm e he)] at this

lemma build_preview_v1_keeps_fs :
    ∀ (sources : List PPath) (cfg : Config) (fs : FS) (p : List PlanEntry) (fs' : FS),
      build_preview_v1 sources cfg fs = .ok (p, fs') → fs' = fs := by
  intro sources
  induction sources with
  | nil =>
    intro cfg fs p fs' h
    unfold build_preview_v1 at h
    injection h with h
    injection h with _ h
    exact h.symm
  | cons source rest ih =>
    intro cfg fs p fs' h
    unfold build_preview_v1 at h
    by_cases hex : fs.existsP source = false
    · rw [if_pos hex] at h
      exact ih cfg fs p fs' h
    · rw [if_neg hex] at h
      by_cases hdir : fs.isDir source = false
      · rw [if_pos hdir] at h
        exact absurd h (by simp)
      · rw [if_neg hdir] at h
        rcases hr : build_preview_v1 rest cfg fs with e | pr
        · rw [hr] at h
          exact absurd h (by simp)
        · rw [hr] at h
          rcases pr with ⟨restPlan, fs''⟩
          dsimp only at h
          have : fs'' = fs' := congrArg Prod.snd (Except.ok.inj h)
          rw [← this]
          exact ih cfg fs restPlan fs'' (by rw [hr])

lemma build_preview_v2_keeps_fs (home : PPath) :
    ∀ (sources : List PPath) (cfg : Config) (fs : FS),
      (build_preview_v2 home sources cfg fs).2 = fs := by
  intro sources
  induction sources with
  | nil => intro cfg fs; rfl
  | cons folder rest ih =>
    intro cfg fs
    unfold build_preview_v2
    by_cases hdir : fs.isDir folder = false
    · rw [if_pos hdir]
      exact ih cfg fs
    · rw [if_neg hdir]
      exact ih cfg fs

/-- C9: `build_preview` is read-only — it returns the filesystem unchanged, and
rerunning it on that unchanged filesystem yields the identical plan (both
variants). -/
theorem c9_readonly (sources : List PPath) (cfg : Config) (fs : FS) (home : PPath) :
    (∀ p fs', build_preview_v1 sources cfg fs = .ok (p, fs') →
      fs' = fs ∧ build_preview_v1 sources cfg fs' = .ok (p, fs')) ∧
    ((build_preview_v2 home sources cfg fs).2 = fs ∧
      build_preview_v2 home sources cfg ((build_preview_v2 home sources cfg fs).2) =
        build_preview_v2 home sources cfg fs) := by
  refine ⟨?_, build_preview_v2_keeps_fs home sources cfg fs, ?_⟩
  · intro p fs' h
    have heq := build_preview_v1_keeps_fs sources cfg fs p fs' h
    subst heq
    exact ⟨rfl, h⟩
  · rw [build_preview_v2_keeps_fs home sources cfg fs]

/-- C9 (witness). -/
theorem c9_readonly_witness :
    FS.mk [(⟨true, ["f", "report.pdf"]⟩, 0)] [⟨true, []⟩, ⟨true, ["f"]⟩] =
      FS.mk [(⟨true, ["f", "report.pdf"]⟩, 0)] [⟨true, []⟩, ⟨true, ["f"]⟩] ∧
    build_preview_v1 [⟨true, ["f"]⟩] ⟨[⟨"Documents", [".pdf"], ""⟩], "", ""⟩
        (FS.mk [(⟨true, ["f", "report.pdf"]⟩, 0)] [⟨true, []⟩, ⟨true, ["f"]⟩]) =
      .ok ([{ src := "/f/report.pdf", category := "Documents",
              planned_dest := "/f/Documents/report.pdf" }],
        FS.mk [(⟨true, ["f", "report.pdf"]⟩, 0)] [⟨true, []⟩, ⟨true, ["f"]⟩]) :=
  (c9_readonly [⟨true, ["f"]⟩] ⟨[⟨"Documents", [".pdf"], ""⟩], "", ""⟩
      (FS.mk [(⟨true, ["f", "report.pdf"]⟩, 0)] [⟨true, []⟩, ⟨true, ["f"]⟩])
      (pyPath "/home/u")).1
    [{ src := "/f/report.pdf", category := "Documents",
        planned_dest := "/f/Documents/report.pdf" }]
    (FS.mk [(⟨true, ["f", "report.pdf"]⟩, 0)] [⟨true, []⟩, ⟨true, ["f"]⟩])
    rfl

/-- Filesystem for the C6 counterexample: `/g` is a regular file. -/
def c6fs : FS := ⟨[(⟨true, ["g"]⟩, 0)], [⟨true, []⟩]⟩

/-- C6 (counterexample): a source that exists but is not a directory is not
skipped by `v1.build_preview` — `iterdir()` raises `NotADirectoryError`, which
propagates to the caller (v2 skips it). -/
theorem c6_counterexample :
    build_preview_v1 [⟨true, ["g"]⟩] ⟨[], "", ""⟩ c6fs =
      .error "NotADirectoryError: /g" ∧
    build_preview_v2 (pyPath "/home/u") [⟨true, ["g"]⟩] ⟨[], "", ""⟩ c6fs =
      ([], c6fs) :=
  ⟨rfl, rfl⟩

/-- C6 (amended): a missing source folder is skipped by both variants and the
remaining folders still produce their entries without an exception; an
existing non-directory source is skipped by v2 but raises in v1 (so v1 is
exception-free only when every source is missing or a directory). -/
theorem c6_amended (cfg : Config) (fs : FS) (home : PPath) :
    (∀ source rest, fs.existsP source = false →
      build_preview_v1 (source :: rest) cfg fs = build_preview_v1 rest cfg fs) ∧
    (∀ sources, (∀ s ∈ sources, fs.existsP s = false ∨ fs.isDir s = true) →
      ∃ plan, build_preview_v1 sources cfg fs = .ok (plan, fs)) ∧
    (∀ folder rest, fs.isDir folder = false →
      build_preview_v2 home (folder :: rest) cfg fs = build_preview_v2 home rest cfg fs) := by
  refine ⟨?_, ?_, ?_⟩
  · intro source rest hex
    show (if fs.existsP source = false then build_preview_v1 rest cfg fs
      else if fs.isDir source = false then .error ("NotADirectoryError: " ++ source.str)
      else _) = _
    rw [if_pos hex]
  · intro sources
    induction sources with
    | nil => exact fun _ => ⟨[], rfl⟩
    | cons source rest ih =>
      intro hall
      obtain ⟨plan, hplan⟩ := ih (fun s hs => hall s (List.mem_cons_of_mem _ hs))
      rcases hall source (List.mem_cons_self _ _) with hmiss | hdir
      · refine ⟨plan, ?_⟩
        unfold build_preview_v1
        rw [if_pos hmiss]
        exact hplan
      · have hex : fs.existsP source = true := by
          unfold FS.existsP
          rw [hdir]
          simp
        refine ⟨((fs.children source).filter fs.isFile).map (fun item =>
          let cd := categorize_file item cfg
          let target_folder := if cd.2.abs then cd.2.join cd.1 else source.join cd.1
          { src := item.str, category := cd.1,
            planned_dest := (target_folder.join item.name).str }) ++ plan, ?_⟩
        unfold build_preview_v1
        rw [if_neg (by rw [hex]; simp), if_neg (by rw [hdir]; simp), hplan]
  · intro folder rest hdir
    show (if fs.isDir folder = false then build_preview_v2 home rest cfg fs else _) = _
    rw [if_pos hdir]

/-- C6 (witness): a missing source folder is skipped by v1. -/
theorem c6_amended_witness :
    build_preview_v1 [⟨true, ["missing"]⟩] ⟨[], "", ""⟩ (FS.mk [] [⟨true, []⟩]) =
      build_preview_v1 [] ⟨[], "", ""⟩ (FS.mk [] [⟨true, []⟩]) :=
  (c6_amended ⟨[], "", ""⟩ (FS.mk [] [⟨true, []⟩]) (pyPath "/h")).1
    ⟨true, ["missing"]⟩ [] (by decide)

def c7w_plan : List PlanEntry :=
  [⟨"/f/report.pdf", "Documents", "/f/Documents/report.pdf"⟩]

def c7w_st : St :=
  ⟨⟨[(⟨true, ["f", "report.pdf"]⟩, 0)], [⟨true, []⟩, ⟨true, ["f"]⟩]⟩, none⟩

def c7w_rec : List MoveRec := [⟨"/f/report.pdf", "/f/Documents/report.pdf"⟩]

def c7w_st1 : St :=
  ⟨⟨[(⟨true, ["f", "Documents", "report.pdf"]⟩, 0)],
    [⟨true, []⟩, ⟨true, ["f"]⟩, ⟨true, ["f", "Documents"]⟩]⟩,
   some ⟨"t0", c7w_rec⟩⟩

/-- C7 (witness): one successful move overwrites the (absent) run log. -/
theorem c7_runlog_update_witness :
    ((c7w_rec ≠ [] → c7w_st1.lastRun = some ⟨"t0", c7w_rec⟩) ∧
      (c7w_rec = [] → c7w_st1.lastRun = c7w_st.lastRun)) ∧
    ((c7w_rec ≠ [] → c7w_st1.lastRun = some ⟨"t0", c7w_rec⟩) ∧
      (c7w_rec = [] → c7w_st1.lastRun = c7w_st.lastRun)) :=
  c7_runlog_update c7w_plan "t0" c7w_st rfl rfl

def c10w_plan : List PlanEntry :=
  [⟨"/f/report.pdf", "Documents", "/f/Documents/report.pdf"⟩]

def c10w_st : St :=
  ⟨⟨[(⟨true, ["f", "report.pdf"]⟩, 0)], [⟨true, []⟩, ⟨true, ["f"]⟩]⟩, none⟩

def c10w_rec : List MoveRec := [⟨"/f/report.pdf", "/f/Documents/report.pdf"⟩]

/-- C10 (witness). -/
theorem c10_record_order_witness :
    (c10w_rec.map (fun r => r.src)).Sublist
      (c10w_plan.map (fun e => (pyPath e.src).str)) ∧
    (c10w_rec.map (fun r => r.src)).Sublist (c10w_plan.map (fun e => e.src)) :=
  ⟨(c10_record_order c10w_plan "t0" c10w_st rfl rfl).1.2.1,
    (c10_record_order c10w_plan "t0" c10w_st rfl rfl).1.2.2.1 (by decide)⟩

def c1fs : FS := ⟨[(⟨true, ["f", "report.pdf"]⟩, 0)], [⟨true, []⟩, ⟨true, ["f"]⟩]⟩

def c1cfg : Config := ⟨[⟨"Documents", [".pdf"], ""⟩], "", ""⟩

/-- C1 (counterexample): for the claim's own scenario — a folder containing
`report.pdf` and a rule mapping `.pdf` to `"Documents"` with empty
destination — `v2.build_preview` plans the bare relative path `"report.pdf"`
(root `Path("")` is kept because `str(Path(""))` is `"."`, and no category
subfolder is appended), not `<folder>/Documents/report.pdf`. -/
theorem c1_counterexample :
    (build_preview_v2 (pyPath "/home/u") [⟨true, ["f"]⟩] c1cfg c1fs).1 =
      [⟨"/f/report.pdf", "Documents", "report.pdf"⟩] ∧
    "report.pdf" ≠ "/f/Documents/report.pdf" :=
  ⟨rfl, by decide⟩

lemma categorize_file_snd_NF (file : PPath) (cfg : Config) :
    (categorize_file file cfg).2.NF := by
  unfold categorize_file
  rcases hc : cfg.categories.find? (fun c =>
      decide (strLower file.suffix ∈ c.extensions.map strLower)) with _ | c
  · rw [hc]
    exact pyPath_NF _
  · rw [hc]
    exact pyPath_NF _

lemma resolve_dest_eq (home : PPath) (cfg : Config) (file : PPath) :
    resolve_dest home cfg file = categorize_file file cfg := by
  unfold resolve_dest
  have hne : (categorize_file file cfg).2.str ≠ "" := by
    intro he
    exact PPath.str_ne_empty _ (categorize_file_snd_NF file cfg) (by rw [he])
  dsimp only
  rw [if_pos hne]

lemma build_preview_v1_mem :
    ∀ (sources : List PPath) (cfg : Config) (fs : FS) (plan : List PlanEntry) (fs' : FS),
      build_preview_v1 sources cfg fs = .ok (plan, fs') →
      ∀ e ∈ plan, ∃ folder ∈ sources, ∃ item ∈ fs.children folder,
        fs.isFile item = true ∧
        e = PlanEntry.mk item.str (categorize_file item cfg).1
          (((if (categorize_file item cfg).2.abs then (categorize_file item cfg).2
             else folder).join (categorize_file item cfg).1).join item.name).str := by
  intro sources
  induction sources with
  | nil =>
    intro cfg fs plan fs' h e he
    have : plan = [] := by
      unfold build_preview_v1 at h
      exact (congrArg Prod.fst (Except.ok.inj h)).symm
    rw [this] at he
    exact absurd he (List.not_mem_nil e)
  | cons source rest ih =>
    intro cfg fs plan fs' h e he
    unfold build_preview_v1 at h
    by_cases hex : fs.existsP source = false
    · rw [if_pos hex] at h
      obtain ⟨folder, hf, rest'⟩ := ih cfg fs plan fs' h e he
      exact ⟨folder, List.mem_cons_of_mem _ hf, rest'⟩
    · rw [if_neg hex] at h
      by_cases hdir : fs.isDir source = false
      · rw [if_pos hdir] at h
        exact absurd h (by simp)
      · rw [if_neg hdir] at h
        rcases hr : build_preview_v1 rest cfg fs with er | pr
        · rw [hr] at h
          exact absurd h (by simp)
        · rw [hr] at h
          rcases pr with ⟨restPlan, fs''⟩
          dsimp only at h
          have hplan : plan = ((fs.children source).filter fs.isFile).map (fun item =>
              let cd := categorize_file item cfg
              let target_folder := if cd.2.abs then cd.2.join cd.1 else source.join cd.1
              { src := item.str, category := cd.1,
                planned_dest := (target_folder.join item.name).str }) ++ restPlan :=
            (congrArg Prod.fst (Except.ok.inj h)).symm
          rw [hplan] at he
          rcases List.mem_append.mp he with he | he
          · obtain ⟨item, hitem, rfl⟩ := List.mem_map.mp he
            rw [List.mem_filter] at hitem
            refine ⟨source, List.mem_cons_self _ _, item, hitem.1, hitem.2, ?_⟩
            cases hab : (categorize_file item cfg).2.abs
            · simp [hab]
            · simp [hab]
          · obtain ⟨folder, hf, rest'⟩ := ih cfg fs restPlan fs'' (by rw [hr]) e he
            exact ⟨folder, List.mem_cons_of_mem _ hf, rest'⟩

lemma build_preview_v2_mem (home : PPath) :
    ∀ (sources : List PPath) (cfg : Config) (fs : FS),
      ∀ e ∈ (build_preview_v2 home sources cfg fs).1,
      ∃ folder ∈ sources, ∃ item ∈ fs.children folder,
        fs.isFile item = true ∧
        e = PlanEntry.mk item.str (categorize_file item cfg).1
          ((categorize_file item cfg).2.join item.name).str := by
  intro sources
  induction sources with
  | nil =>
    intro cfg fs e he
    exact absurd he (List.not_mem_nil e)
  | cons folder rest ih =>
    intro cfg fs e he
    unfold build_preview_v2 at he
    by_cases hdir : fs.isDir folder = false
    · rw [if_pos hdir] at he
      obtain ⟨f2, hf, rest'⟩ := ih cfg fs e he
      exact ⟨f2, List.mem_cons_of_mem _ hf, rest'⟩
    · rw [if_neg hdir] at he
      dsimp only at he
      rcases List.mem_append.mp he with he | he
      · obtain ⟨item, hitem, rfl⟩ := List.mem_map.mp he
        rw [List.mem_filter] at hitem
        refine ⟨folder, List.mem_cons_self _ _, item, hitem.1, hitem.2, ?_⟩
        rw [resolve_dest_eq home cfg item]
      · obtain ⟨f2, hf, rest'⟩ := ih cfg fs e he
        exact ⟨f2, List.mem_cons_of_mem _ hf, rest'⟩

/-- C1 (amended): in v1 every plan entry's planned destination is
target-root / category / base-name, the target root being the matched rule's
destination when that path is absolute and the file's source folder otherwise.
In v2 the planned destination is resolved-root / base-name with no category
subfolder, the resolved root being `Path(rule destination)` itself (for an
empty destination that is the relative path `.`, so the planned destination is
the bare base name; the home-directory fallback is unreachable because
`str(Path(s))` is never empty). -/
theorem c1_planned_destination (sources : List PPath) (cfg : Config) (fs : FS)
    (home : PPath) :
    (∀ plan fs', build_preview_v1 sources cfg fs = .ok (plan, fs') →
      ∀ e ∈ plan, ∃ folder ∈ sources, ∃ item ∈ fs.children folder,
        fs.isFile item = true ∧
        e = PlanEntry.mk item.str (categorize_file item cfg).1
          (((if (categorize_file item cfg).2.abs then (categorize_file item cfg).2
             else folder).join (categorize_file item cfg).1).join item.name).str) ∧
    (∀ e ∈ (build_preview_v2 home sources cfg fs).1,
      ∃ folder ∈ sources, ∃ item ∈ fs.children folder,
        fs.isFile item = true ∧
        e = PlanEntry.mk item.str (categorize_file item cfg).1
          ((categorize_file item cfg).2.join item.name).str) :=
  ⟨fun plan fs' h => build_preview_v1_mem sources cfg fs plan fs' h,
    build_preview_v2_mem home sources cfg fs⟩

/-- C1 (witness): the v1 half applied to the claim's own scenario. -/
theorem c1_planned_destination_witness :
    ∃ folder ∈ [(⟨true, ["f"]⟩ : PPath)], ∃ item ∈ c1fs.children folder,
      c1fs.isFile item = true ∧
      PlanEntry.mk "/f/report.pdf" "Documents" "/f/Documents/report.pdf" =
        PlanEntry.mk item.str (categorize_file item c1cfg).1
          (((if (categorize_file item c1cfg).2.abs then (categorize_file item c1cfg).2
             else folder).join (categorize_file item c1cfg).1).join item.name).str :=
  (c1_planned_destination [⟨true, ["f"]⟩] c1cfg c1fs (pyPath "/home/u")).1
    [⟨"/f/report.pdf", "Documents", "/f/Documents/report.pdf"⟩] c1fs rfl
    ⟨"/f/report.pdf", "Documents", "/f/Documents/report.pdf"⟩ (List.mem_cons_self _ _)

lemma lookupP_single_ne {p q : PPath} {v : Nat} (h : q ≠ p) :
    lookupP [(q, v)] p = none := by
  show (if q = p then some v else none) = none
  rw [if_neg h]

/-- C5: `_unique_dest` returns the destination itself when nothing exists
there, and otherwise the candidate `<stem>_k<suffix>` for the least `k ≥ 1`
whose name is unused; and a move to the collision-safe path neither overwrites
the occupant of the planned destination nor deletes any file. -/
theorem c5_collision_safe (fs : FS) (dest : PPath)
    (hns : '/' ∉ dest.name.data) (hwf : fs.WF) :
    (fs.existsP dest = false → fs.uniqueDest dest = dest) ∧
    (fs.existsP dest = true →
      ∃ k, 1 ≤ k ∧
        fs.uniqueDest dest = dest.parent.join (candName dest.stem dest.suffix k) ∧
        fs.existsP (fs.uniqueDest dest) = false ∧
        ∀ j, 1 ≤ j → j < k →
          fs.existsP (dest.parent.join (candName dest.stem dest.suffix j)) = true) ∧
    (∀ src fs', fs.existsP dest = true → src ≠ dest →
      fs.move src (fs.uniqueDest dest) = .ok fs' →
      lookupP fs'.files dest = lookupP fs.files dest) ∧
    (∀ src dst fs', fs.move src dst = .ok fs' →
      ∀ v ∈ fs.files.map Prod.snd, v ∈ fs'.files.map Prod.snd) := by
  refine ⟨fs.uniqueDest_not_exists dest, fs.uniqueDest_spec dest hns, ?_, ?_⟩
  · intro src fs' hexdest hne hmv
    obtain ⟨fid, hlsrc, hexud, hdirud, rfl⟩ := FS.move_ok hmv
    have hud_ne : fs.uniqueDest dest ≠ dest := by
      intro heq
      rw [heq, hexdest] at hexud
      exact absurd hexud (by simp)
    show lookupP (removeKey fs.files src ++ [(fs.uniqueDest dest, fid)]) dest =
      lookupP fs.files dest
    rw [lookupP_append, lookupP_removeKey_ne fs.files (Ne.symm hne)]
    rcases hl2 : lookupP fs.files dest with _ | v
    · rw [lookupP_single_ne hud_ne]
    · rfl
  · intro src dst fs' hmv v hv
    obtain ⟨fid, hlsrc, hexdst, hdirdst, rfl⟩ := FS.move_ok hmv
    obtain ⟨e, he, hev⟩ := List.mem_map.mp hv
    by_cases hsrc : e.1 = src
    · have : v = fid := by
        have hl := lookupP_of_mem_nodup hwf.nodupKeys (show (e.1, e.2) ∈ fs.files from he)
        rw [hsrc, hlsrc] at hl
        have := Option.some.inj hl
        rw [← hev, ← this]
      rw [this]
      refine List.mem_map.mpr ⟨(dst, fid), ?_, rfl⟩
      exact List.mem_append.mpr (Or.inr (List.mem_cons_self _ _))
    · refine List.mem_map.mpr ⟨e, ?_, hev⟩
      exact List.mem_append.mpr (Or.inl (mem_removeKey.mpr ⟨he, hsrc⟩))

def c5w_fs : FS :=
  ⟨[(⟨true, ["f", "a.txt"]⟩, 0), (⟨true, ["f", "a_1.txt"]⟩, 1), (⟨true, ["g", "a.txt"]⟩, 2)],
   [⟨true, []⟩, ⟨true, ["f"]⟩, ⟨true, ["g"]⟩]⟩

/-- C5 (witness): with `a.txt` and `a_1.txt` both taken, the collision-safe
path is `a_2.txt`, and moving `/g/a.txt` there leaves the occupant of the
planned destination untouched. -/
theorem c5_collision_safe_witness :
    (∃ k, 1 ≤ k ∧
      c5w_fs.uniqueDest ⟨true, ["f", "a.txt"]⟩ =
        (PPath.parent ⟨true, ["f", "a.txt"]⟩).join
          (candName (PPath.stem ⟨true, ["f", "a.txt"]⟩)
            (PPath.suffix ⟨true, ["f", "a.txt"]⟩) k) ∧
      c5w_fs.existsP (c5w_fs.uniqueDest ⟨true, ["f", "a.txt"]⟩) = false ∧
      ∀ j, 1 ≤ j → j < k →
        c5w_fs.existsP ((PPath.parent ⟨true, ["f", "a.txt"]⟩).join
          (candName (PPath.stem ⟨true, ["f", "a.txt"]⟩)
            (PPath.suffix ⟨true, ["f", "a.txt"]⟩) j)) = true) ∧
    lookupP (FS.mk
        [(⟨true, ["f", "a.txt"]⟩, 0), (⟨true, ["f", "a_1.txt"]⟩, 1),
          (⟨true, ["f", "a_2.txt"]⟩, 2)]
        [⟨true, []⟩, ⟨true, ["f"]⟩, ⟨true, ["g"]⟩]).files ⟨true, ["f", "a.txt"]⟩ =
      lookupP c5w_fs.files ⟨true, ["f", "a.txt"]⟩ :=
  ⟨(c5_collision_safe c5w_fs ⟨true, ["f", "a.txt"]⟩ (by decide)
      ⟨by decide, by decide, by decide⟩).2.1 (by decide),
    (c5_collision_safe c5w_fs ⟨true, ["f", "a.txt"]⟩ (by decide)
      ⟨by decide, by decide, by decide⟩).2.2.1 ⟨true, ["g", "a.txt"]⟩ _
      (by decide) (by decide) rfl⟩

def c8fs : FS :=
  ⟨[(⟨true, ["a", "b"]⟩, 0), (⟨true, ["d", "c.txt"]⟩, 1)],
   [⟨true, []⟩, ⟨true, ["a"]⟩, ⟨true, ["d"]⟩]⟩

/-- C8 (counterexample): with a run log whose record's original parent
directory chain is now blocked by a regular file at `/a/b`, `v1.undo_last_run`
does not accumulate the failure — the `mkdir` before the `try` raises and the
exception propagates, the remaining records are not attempted and no failure
message is returned (v2 accumulates the same failure). -/
theorem c8_counterexample :
    undo_last_run_v1 ⟨c8fs, some ⟨"t", [⟨"/a/b/c.txt", "/d/c.txt"⟩]⟩⟩ =
      .error "FileExistsError: /a/b" ∧
    undo_last_run_v2 ⟨c8fs, some ⟨"t", [⟨"/a/b/c.txt", "/d/c.txt"⟩]⟩⟩ =
      .ok (false, v2FailHeader ++ "/d/c.txt -> /a/b/c.txt: FileExistsError: /a/b",
        ⟨c8fs, some ⟨"t", [⟨"/a/b/c.txt", "/d/c.txt"⟩]⟩⟩) :=
  ⟨rfl, rfl⟩

lemma undoLoop_false_total :
    ∀ (recs : List MoveRec) (fs : FS), ∃ r, undoLoop false recs fs = .ok r := by
  intro recs
  induction recs with
  | nil =>
    intro fs
    exact ⟨(fs, []), rfl⟩
  | cons mv rest ih =>
    intro fs
    unfold undoLoop
    dsimp only
    rcases hm : fs.mkdirP (pyPath mv.src).parent with e | fs1
    · dsimp only
      rw [if_neg Bool.false_ne_true]
      obtain ⟨⟨fs', fails⟩, hr⟩ := ih fs
      rw [hr]
      exact ⟨(fs', ((pyPath mv.dest).str ++ " -> " ++ (pyPath mv.src).str ++ ": " ++ e)
        :: fails), rfl⟩
    · dsimp only
      rcases hmv : fs1.move (pyPath mv.dest) (fs1.uniqueDest (pyPath mv.src)) with e | fs2
      · dsimp only
        obtain ⟨⟨fs', fails⟩, hr⟩ := ih fs1
        rw [hr]
        exact ⟨(fs', ((pyPath mv.dest).str ++ " -> " ++ (pyPath mv.src).str ++ ": " ++ e)
          :: fails), rfl⟩
      · exact ih fs2

/-- C8 (amended): whenever `undo_last_run` returns normally, per-record move
failures are accumulated rather than fatal: the overall result is failure with
a message enumerating each failed reversal, and the run log is preserved; the
log is deleted exactly when every reversal succeeded.  In v2 the loop always
returns normally (even `mkdir` failures are accumulated); in v1 a failure
while recreating a record's original parent directory propagates as an
exception instead. -/
theorem c8_accumulated_failures (st : St) (log : RunLog)
    (hlog : st.lastRun = some log) :
    (∀ ok msg st2, undo_last_run_v2 st = .ok (ok, msg, st2) →
      (ok = true → st2.lastRun = none ∧ msg = undidMsg log.moves.length) ∧
      (ok = false → st2.lastRun = some log ∧
        ∃ fails, fails ≠ [] ∧ msg = v2FailHeader ++ String.intercalate "\n" fails)) ∧
    (∀ ok msg st2, undo_last_run_v1 st = .ok (ok, msg, st2) →
      (ok = true → st2.lastRun = none ∧ msg = undidMsg log.moves.length) ∧
      (ok = false → st2.lastRun = some log ∧
        ∃ fails, fails ≠ [] ∧
          msg = "Some files failed to undo:\n" ++ String.intercalate "\n" fails)) ∧
    (∃ r, undoLoop false log.moves.reverse st.fs = .ok r) := by
  refine ⟨?_, ?_, undoLoop_false_total log.moves.reverse st.fs⟩
  · intro ok msg st2 h
    unfold undo_last_run_v2 at h
    rw [hlog] at h
    dsimp only at h
    rcases hu : undoLoop false log.moves.reverse st.fs with e | ⟨fs', fails⟩
    · rw [hu] at h
      exact absurd h (by simp)
    · rw [hu] at h
      dsimp only at h
      by_cases hf : fails.isEmpty
      · rw [if_pos hf] at h
        have h2 := Except.ok.inj h
        have hok : ok = true := (congrArg Prod.fst h2).symm
        have hmsg : msg = undidMsg log.moves.length :=
          (congrArg (fun x => x.2.1) h2).symm
        have hst2 : st2 = St.mk fs' none := (congrArg (fun x => x.2.2) h2).symm
        subst hok
        constructor
        · intro _
          rw [hst2]
          exact ⟨rfl, hmsg⟩
        · intro hc
          exact absurd hc (by simp)
      · rw [if_neg hf] at h
        have h2 := Except.ok.inj h
        have hok : ok = false := (congrArg Prod.fst h2).symm
        have hmsg : msg = v2FailHeader ++ String.intercalate "\n" fails :=
          (congrArg (fun x => x.2.1) h2).symm
        have hst2 : st2 = St.mk fs' (some log) := (congrArg (fun x => x.2.2) h2).symm
        subst hok
        constructor
        · intro hc
          exact absurd hc (by simp)
        · intro _
          rw [hst2]
          exact ⟨rfl, fails, by simpa using hf, hmsg⟩
  · intro ok msg st2 h
    unfold undo_last_run_v1 at h
    rw [hlog] at h
    dsimp only at h
    rcases hu : undoLoop true log.moves.reverse st.fs with e | ⟨fs', fails⟩
    · rw [hu] at h
      exact absurd h (by simp)
    · rw [hu] at h
      dsimp only at h
      by_cases hf : fails.isEmpty
      · rw [if_pos hf] at h
        have h2 := Except.ok.inj h
        have hok : ok = true := (congrArg Prod.fst h2).symm
        have hmsg : msg = undidMsg log.moves.length :=
          (congrArg (fun x => x.2.1) h2).symm
        have hst2 : st2 = St.mk fs' none := (congrArg (fun x => x.2.2) h2).symm
        subst hok
        constructor
        · intro _
          rw [hst2]
          exact ⟨rfl, hmsg⟩
        · intro hc
          exact absurd hc (by simp)
      · rw [if_neg hf] at h
        have h2 := Except.ok.inj h
        have hok : ok = false := (congrArg Prod.fst h2).symm
        have hmsg : msg = "Some files failed to undo:\n" ++ String.intercalate "\n" fails :=
          (congrArg (fun x => x.2.1) h2).symm
        have hst2 : st2 = St.mk fs' (some log) := (congrArg (fun x => x.2.2) h2).symm
        subst hok
        constructor
        · intro hc
          exact absurd hc (by simp)
        · intro _
          rw [hst2]
          exact ⟨rfl, fails, by simpa using hf, hmsg⟩

def c8w_st : St :=
  ⟨⟨[(⟨true, ["a", "b"]⟩, 0), (⟨true, ["d", "c.txt"]⟩, 1)],
    [⟨true, []⟩, ⟨true, ["a"]⟩, ⟨true, ["d"]⟩]⟩,
   some ⟨"t", [⟨"/a/b/c.txt", "/d/c.txt"⟩, ⟨"/missing.txt", "/d/m.txt"⟩]⟩⟩

/-- C8 (witness): a run log with two unrecoverable records — v2 attempts both,
reports failure with a two-line enumeration, and keeps the log. -/
theorem c8_accumulated_failures_witness :
    (St.mk c8w_st.fs (some ⟨"t", [⟨"/a/b/c.txt", "/d/c.txt"⟩, ⟨"/missing.txt", "/d/m.txt"⟩]⟩)).lastRun =
      some ⟨"t", [⟨"/a/b/c.txt", "/d/c.txt"⟩, ⟨"/missing.txt", "/d/m.txt"⟩]⟩ ∧
    ∃ fails, fails ≠ [] ∧
      (v2FailHeader ++ "/d/m.txt -> /missing.txt: FileNotFoundError: /d/m.txt\n" ++
          "/d/c.txt -> /a/b/c.txt: FileExistsError: /a/b") =
        v2FailHeader ++ String.intercalate "\n" fails :=
  (c8_accumulated_failures c8w_st
      ⟨"t", [⟨"/a/b/c.txt", "/d/c.txt"⟩, ⟨"/missing.txt", "/d/m.txt"⟩]⟩ rfl).1
    false
    (v2FailHeader ++ "/d/m.txt -> /missing.txt: FileNotFoundError: /d/m.txt\n" ++
      "/d/c.txt -> /a/b/c.txt: FileExistsError: /a/b")
    (St.mk c8w_st.fs (some ⟨"t", [⟨"/a/b/c.txt", "/d/c.txt"⟩, ⟨"/missing.txt", "/d/m.txt"⟩]⟩))
    (by rfl) |>.2 rfl

lemma lookupP_append_some {l1 l2 : List (PPath × Nat)} {p : PPath} {v : Nat}
    (h : lookupP l1 p = some v) : lookupP (l1 ++ l2) p = some v := by
  rw [lookupP_append, h]

lemma lookupP_append_none {l1 l2 : List (PPath × Nat)} {p : PPath}
    (h : lookupP l1 p = none) : lookupP (l1 ++ l2) p = lookupP l2 p := by
  rw [lookupP_append, h]

lemma FS.existsP_false_parts {fs : FS} {p : PPath} (h : fs.existsP p = false) :
    fs.isFile p = false ∧ fs.isDir p = false := by
  unfold FS.existsP at h
  rcases hf : fs.isFile p <;> rcases hd : fs.isDir p <;>
    rw [hf, hd] at h <;> simp_all

lemma FS.WF.dirNotFile {fs : FS} (h : fs.WF) {q : PPath} (hq : q ∈ fs.dirs) :
    fs.isFile q = false := by
  rw [Bool.eq_false_iff]
  intro hf
  have hd := h.notDir hf
  unfold FS.isDir at hd
  rw [decide_eq_false_iff_not] at hd
  exact hd hq

lemma FS.notDir_not_mem {fs : FS} {q : PPath} (h : fs.isDir q = false) :
    q ∉ fs.dirs := by
  unfold FS.isDir at h
  rw [decide_eq_false_iff_not] at h
  exact h

lemma PPath.name_good (p : PPath) (hp : p.NF) (hne : p.comps ≠ []) :
    goodComp p.name := by
  unfold PPath.name
  rw [List.getLast?_eq_getLast_of_ne_nil hne]
  exact hp _ (List.getLast_mem hne)

lemma destOfV1_NF (e : PlanEntry) : (destOfV1 e).NF :=
  PPath.join_NF _ _ (PPath.parent_NF _ (pyPath_NF _))

lemma destOfV2_NF (e : PlanEntry) : (destOfV2 e).NF := pyPath_NF _

lemma destOfV1_parent (e : PlanEntry) (h : (pyPath e.src).comps ≠ []) :
    (destOfV1 e).parent = (pyPath e.planned_dest).parent :=
  PPath.parent_join_single _ _ (PPath.name_good _ (pyPath_NF _) h)

lemma destOfV2_parent (e : PlanEntry) :
    (destOfV2 e).parent = (pyPath e.planned_dest).parent := rfl

lemma FS.move_WF {fs : FS} {src dst : PPath} {fs' : FS}
    (h : fs.move src dst = .ok fs') (hwf : fs.WF) : fs'.WF := by
  obtain ⟨fid, hlsrc, hexdst, hdirdst, rfl⟩ := FS.move_ok h
  have hdstnotfile : fs.isFile dst = false := (FS.existsP_false_parts hexdst).1
  refine ⟨?_, ?_, ?_⟩
  · show ((removeKey fs.files src ++ [(dst, fid)]).map Prod.fst).Nodup
    rw [List.map_append]
    rw [List.nodup_append]
    refine ⟨(removeKey_keys_sublist fs.files src).nodup hwf.nodupKeys,
      List.nodup_singleton _, ?_⟩
    intro q hq hq2
    rw [List.map_singleton, List.mem_singleton] at hq2
    subst hq2
    rw [FS.isFile_eq_false_iff] at hdstnotfile
    obtain ⟨e, he, rfl⟩ := List.mem_map.mp hq
    exact hdstnotfile (List.mem_map.mpr ⟨e, (removeKey_sublist fs.files src).mem he, rfl⟩)
  · intro e he
    show FS.isDir _ e.1 = false
    rcases List.mem_append.mp he with he | he
    · exact hwf.filesNotDirs e ((removeKey_sublist fs.files src).mem he)
    · rw [List.mem_singleton] at he
      subst he
      exact (FS.existsP_false_parts hexdst).2
  · intro e he
    rcases List.mem_append.mp he with he | he
    · exact hwf.filesNamed e ((removeKey_sublist fs.files src).mem he)
    · rw [List.mem_singleton] at he
      subst he
      exact FS.move_ok_dst_comps h

lemma FS.move_AD {fs : FS} {src dst : PPath} {fs' : FS}
    (h : fs.move src dst = .ok fs') (had : fs.AD)
    (hanc : ∀ q ∈ (PPath.parent dst).ancestors, q ∈ fs.dirs) : fs'.AD := by
  obtain ⟨fid, _, _, _, rfl⟩ := FS.move_ok h
  intro e he q hq
  rcases List.mem_append.mp he with he | he
  · exact had e ((removeKey_sublist fs.files src).mem he) q hq
  · rw [List.mem_singleton] at he
    subst he
    exact hanc q hq

lemma performLoop_dirs (destOf : PlanEntry → PPath) :
    ∀ (plan : List PlanEntry) (fs : FS) (recs : List MoveRec) (fs' : FS),
      performLoop destOf plan fs = .ok (recs, fs') →
      (∀ q ∈ fs.dirs, q ∈ fs'.dirs) ∧
      (∀ q ∈ fs'.dirs, q ∈ fs.dirs ∨
        ∃ e ∈ plan, q.ancestorOf (pyPath e.planned_dest).parent) := by
  intro plan
  induction plan with
  | nil =>
    intro fs recs fs' h
    have : fs' = fs := by
      unfold performLoop at h
      exact (congrArg Prod.snd (Except.ok.inj h)).symm
    subst this
    exact ⟨fun q hq => hq, fun q hq => Or.inl hq⟩
  | cons entry rest ih =>
    intro fs recs fs' h
    unfold performLoop at h
    dsimp only at h
    rcases hm : fs.mkdirP (pyPath entry.planned_dest).parent with e | fs1
    · rw [hm] at h
      exact absurd h (by simp)
    · rw [hm] at h
      dsimp only at h
      obtain ⟨hfiles1, _, hmono1, _, hsub1⟩ := FS.mkdirP_ok hm
      rcases hmv : fs1.move (pyPath entry.src) (fs1.uniqueDest (destOf entry)) with e | fs2
      · rw [hmv] at h
        dsimp only at h
        obtain ⟨ihm, ihs⟩ := ih fs1 recs fs' h
        refine ⟨fun q hq => ihm q (hmono1 q hq), ?_⟩
        intro q hq
        rcases ihs q hq with hq | ⟨e2, he2, hanc⟩
        · rcases hsub1 q hq with hq | hq
          · exact Or.inl hq
          · exact Or.inr ⟨entry, List.mem_cons_self _ _, hq⟩
        · exact Or.inr ⟨e2, List.mem_cons_of_mem _ he2, hanc⟩
      · rw [hmv] at h
        dsimp only at h
        rcases hr : performLoop destOf rest fs2 with e | pr
        · rw [hr] at h
          exact absurd h (by simp)
        · rw [hr] at h
          rcases pr with ⟨recsR, fsX⟩
          dsimp only at h
          have hfs' : fsX = fs' := by
            have h2 := Except.ok.inj h
            exact congrArg Prod.snd h2
          subst hfs'
          obtain ⟨_, _, _, _, hfs2⟩ := FS.move_ok hmv
          have hdirs2 : fs2.dirs = fs1.dirs := by
            rw [hfs2]
          obtain ⟨ihm, ihs⟩ := ih fs2 recsR fsX (by rw [hr])
          refine ⟨?_, ?_⟩
          · intro q hq
            refine ihm q ?_
            rw [hdirs2]
            exact hmono1 q hq
          · intro q hq
            rcases ihs q hq with hq | ⟨e2, he2, hanc⟩
            · rw [hdirs2] at hq
              rcases hsub1 q hq with hq | hq
              · exact Or.inl hq
              · exact Or.inr ⟨entry, List.mem_cons_self _ _, hq⟩
            · exact Or.inr ⟨e2, List.mem_cons_of_mem _ he2, hanc⟩

lemma performLoop_length (destOf : PlanEntry → PPath) :
    ∀ (plan : List PlanEntry) (fs : FS) (recs : List MoveRec) (fs' : FS),
      performLoop destOf plan fs = .ok (recs, fs') → recs.length ≤ plan.length := by
  intro plan fs recs fs' h
  have := performLoop_srcs destOf plan fs recs fs' h
  have hlen := this.length_le
  rw [List.length_map, List.length_map] at hlen
  exact hlen

lemma undoLoop_append_nofail (b : Bool) :
    ∀ (l1 l2 : List MoveRec) (fs fs1 : FS),
      undoLoop b l1 fs = .ok (fs1, []) →
      undoLoop b (l1 ++ l2) fs = undoLoop b l2 fs1 := by
  intro l1
  induction l1 with
  | nil =>
    intro l2 fs fs1 h
    have : fs1 = fs := by
      unfold undoLoop at h
      exact (congrArg Prod.fst (Except.ok.inj h)).symm
    subst this
    rfl
  | cons mv l1tl ih =>
    intro l2 fs fs1 h
    unfold undoLoop at h
    dsimp only at h
    rw [List.cons_append]
    rcases hm : fs.mkdirP (pyPath mv.src).parent with e | fsA
    · rw [hm] at h
      dsimp only at h
      rcases b with _ | _
      · rw [if_neg Bool.false_ne_true] at h
        rcases hu : undoLoop false l1tl fs with e2 | ⟨fsB, fails⟩
        · rw [hu] at h
          exact absurd h (by simp)
        · rw [hu] at h
          dsimp only at h
          have := congrArg Prod.snd (Except.ok.inj h)
          exact absurd this (by simp)
      · rw [if_pos rfl] at h
        exact absurd h (by simp)
    · rw [hm] at h
      dsimp only at h
      rcases hmv : fsA.move (pyPath mv.dest) (fsA.uniqueDest (pyPath mv.src)) with e | fsB
      · rw [hmv] at h
        dsimp only at h
        rcases hu : undoLoop b l1tl fsA with e2 | ⟨fsC, fails⟩
        · rw [hu] at h
          exact absurd h (by simp)
        · rw [hu] at h
          dsimp only at h
          have := congrArg Prod.snd (Except.ok.inj h)
          exact absurd this (by simp)
      · rw [hmv] at h
        simp only [undoLoop]
        rw [hm]
        dsimp only
        rw [hmv]
        exact ih l2 fsB fs1 h


/-- Round trip of one `perform_moves` batch followed by `undo_last_run`'s loop:
if every entry's move succeeded and no entry's source path lies on the
directory chain of any entry's planned destination, the reversed-order undo
loop succeeds with no failures and restores the file table exactly.
(Directories created during the run persist, which is why the side condition
is needed: a created directory sitting at a record's original path forces a
collision-suffixed restore, as in C3's counterexample.) -/
lemma performUndo_roundTrip (destOf : PlanEntry → PPath)
    (hNFd : ∀ e, (destOf e).NF)
    (hpar : ∀ e, (pyPath e.src).comps ≠ [] →
      (destOf e).parent = (pyPath e.planned_dest).parent)
    (b : Bool) :
    ∀ (plan : List PlanEntry) (fs : FS) (recs : List MoveRec) (fsM : FS),
      fs.WF → fs.AD →
      performLoop destOf plan fs = .ok (recs, fsM) →
      recs.length = plan.length →
      (∀ e ∈ plan, ∀ e2 ∈ plan,
        ¬ (pyPath e.src).ancestorOf (pyPath e2.planned_dest).parent) →
      ∃ fsU, undoLoop b recs.reverse fsM = .ok (fsU, []) ∧
        (∀ p, lookupP fsU.files p = lookupP fs.files p) ∧
        fsU.dirs = fsM.dirs ∧ fsU.WF := by
  intro plan
  induction plan with
  | nil =>
    intro fs recs fsM hwf had hperf hlen hH
    have hrecs : recs = [] := by
      unfold performLoop at hperf
      exact (congrArg Prod.fst (Except.ok.inj hperf)).symm
    have hfsM : fsM = fs := by
      unfold performLoop at hperf
      exact (congrArg Prod.snd (Except.ok.inj hperf)).symm
    subst hrecs
    subst hfsM
    exact ⟨fsM, rfl, fun p => rfl, rfl, hwf⟩
  | cons entry rest ih =>
    intro fs recs fsM hwf had hperf hlen hH
    have hperf0 := hperf
    unfold performLoop at hperf
    dsimp only at hperf
    rcases hm : fs.mkdirP (pyPath entry.planned_dest).parent with e | fs1
    · rw [hm] at hperf
      exact absurd hperf (by simp)
    · rw [hm] at hperf
      dsimp only at hperf
      obtain ⟨hfiles1, hnof1, hmono1, hanc1, hsub1⟩ := FS.mkdirP_ok hm
      rcases hmv : fs1.move (pyPath entry.src) (fs1.uniqueDest (destOf entry)) with e | fs2
      · rw [hmv] at hperf
        dsimp only at hperf
        have := performLoop_length destOf rest fs1 recs fsM hperf
        rw [List.length_cons] at hlen
        omega
      · rw [hmv] at hperf
        dsimp only at hperf
        rcases hr : performLoop destOf rest fs2 with e | pr
        · rw [hr] at hperf
          exact absurd hperf (by simp)
        · rw [hr] at hperf
          rcases pr with ⟨recsR, fsM'⟩
          dsimp only at hperf
          have hpair := Except.ok.inj hperf
          have hrecs : recs = MoveRec.mk (pyPath entry.src).str
              (fs1.uniqueDest (destOf entry)).str :: recsR :=
            (congrArg Prod.fst hpair).symm
          have hfsM' : fsM' = fsM := congrArg Prod.snd hpair
          rw [hfsM'] at hr
          obtain ⟨fid, hlsrc, hexsafe, hdirsafe, hfs2⟩ := FS.move_ok hmv
          have hwf1 : fs1.WF := FS.mkdirP_WF hm hwf
          have had1 : fs1.AD := FS.mkdirP_AD hm had
          have hsrcfile_fs : lookupP fs.files (pyPath entry.src) = some fid := by
            rw [← hfiles1]
            exact hlsrc
          have hsrc_mem : (pyPath entry.src, fid) ∈ fs.files := lookupP_mem hsrcfile_fs
          have hsrc_comps : (pyPath entry.src).comps ≠ [] :=
            hwf.filesNamed (pyPath entry.src, fid) hsrc_mem
          have hns : '/' ∉ (destOf entry).name.data := PPath.name_no_slash _ (hNFd entry)
          have hsafe_parent : (fs1.uniqueDest (destOf entry)).parent =
              (pyPath entry.planned_dest).parent := by
            rw [fs1.uniqueDest_parent _ hns, hpar entry hsrc_comps]
          have hsafe_NF : (fs1.uniqueDest (destOf entry)).NF :=
            fs1.uniqueDest_NF _ (hNFd entry)
          have hsrc_isfile1 : fs1.isFile (pyPath entry.src) = true := by
            unfold FS.isFile
            rw [hlsrc]
            rfl
          have hsafe_ne_src : fs1.uniqueDest (destOf entry) ≠ pyPath entry.src := by
            intro heq
            have hex : fs1.existsP (pyPath entry.src) = true := by
              unfold FS.existsP
              rw [hsrc_isfile1]
              rfl
            rw [heq, hex] at hexsafe
            exact absurd hexsafe (by simp)
          have hwf2 : fs2.WF := FS.move_WF hmv hwf1
          have had2 : fs2.AD := by
            refine FS.move_AD hmv had1 ?_
            intro q hq
            rw [hsafe_parent] at hq
            exact hanc1 q (PPath.mem_ancestors.mp hq)
          have hlenR : recsR.length = rest.length := by
            rw [hrecs, List.length_cons] at hlen
            rw [List.length_cons] at hlen
            omega
          have hHrest : ∀ e ∈ rest, ∀ e2 ∈ rest,
              ¬ (pyPath e.src).ancestorOf (pyPath e2.planned_dest).parent :=
            fun e he e2 he2 =>
              hH e (List.mem_cons_of_mem _ he) e2 (List.mem_cons_of_mem _ he2)
          obtain ⟨G, hundoR, hlookG, hdirsG, hwfG⟩ :=
            ih fs2 recsR fsM hwf2 had2 hr hlenR hHrest
          have hdirs_fs2_fsM : ∀ q ∈ fs2.dirs, q ∈ fsM.dirs :=
            (performLoop_dirs destOf rest fs2 recsR fsM hr).1
          have hdirs2eq : fs2.dirs = fs1.dirs := by
            rw [hfs2]
          have hdirs_fs_G : ∀ q ∈ fs.dirs, q ∈ G.dirs := by
            intro q hq
            rw [hdirsG]
            refine hdirs_fs2_fsM q ?_
            rw [hdirs2eq]
            exact hmono1 q hq
          have hGsrc_notfile : lookupP G.files (pyPath entry.src) = none := by
            rw [hlookG (pyPath entry.src), hfs2]
            show lookupP (removeKey fs1.files (pyPath entry.src) ++
              [(fs1.uniqueDest (destOf entry), fid)]) (pyPath entry.src) = none
            rw [lookupP_append_none (lookupP_removeKey_self _ _)]
            exact lookupP_single_ne hsafe_ne_src
          have hGsrc_notdir : pyPath entry.src ∉ G.dirs := by
            rw [hdirsG]
            intro hmem
            rcases (performLoop_dirs destOf (entry :: rest) fs recs fsM hperf0).2
                (pyPath entry.src) hmem with hq | ⟨e2, he2, hanc⟩
            · have hf : fs.isFile (pyPath entry.src) = true := by
                unfold FS.isFile
                rw [hsrcfile_fs]
                rfl
              exact FS.notDir_not_mem (hwf.notDir hf) hq
            · exact hH entry (List.mem_cons_self _ _) e2 he2 hanc
          have hGsrc_noexist : G.existsP (pyPath entry.src) = false := by
            unfold FS.existsP FS.isFile FS.isDir
            rw [hGsrc_notfile]
            simp [hGsrc_notdir]
          have hGsafe : lookupP G.files (fs1.uniqueDest (destOf entry)) = some fid := by
            rw [hlookG (fs1.uniqueDest (destOf entry)), hfs2]
            show lookupP (removeKey fs1.files (pyPath entry.src) ++
              [(fs1.uniqueDest (destOf entry), fid)]) (fs1.uniqueDest (destOf entry)) =
              some fid
            rw [lookupP_append_none]
            · show (if fs1.uniqueDest (destOf entry) = fs1.uniqueDest (destOf entry)
                then some fid else none) = some fid
              rw [if_pos rfl]
            · rw [lookupP_removeKey_ne _ hsafe_ne_src]
              have hnf : fs1.isFile (fs1.uniqueDest (destOf entry)) = false :=
                (FS.existsP_false_parts hexsafe).1
              unfold FS.isFile at hnf
              rcases hl : lookupP fs1.files (fs1.uniqueDest (destOf entry)) with _ | v
              · rfl
              · rw [hl] at hnf
                exact absurd hnf (by simp)
          have hanc_src_G : ∀ q, q.ancestorOf (pyPath entry.src).parent → q ∈ G.dirs := by
            intro q hq
            refine hdirs_fs_G q ?_
            exact had (pyPath entry.src, fid) hsrc_mem q (PPath.mem_ancestors.mpr hq)
          have hmkG : G.mkdirP (pyPath entry.src).parent = .ok G :=
            FS.mkdirP_noop (fun q hq => hanc_src_G q hq) (fun q hq => hwfG.dirNotFile hq)
          have hudG : G.uniqueDest (pyPath entry.src) = pyPath entry.src :=
            G.uniqueDest_not_exists (pyPath entry.src) hGsrc_noexist
          have hsrc_parent_dir : G.isDir (pyPath entry.src).parent = true :=
            decide_eq_true (hanc_src_G _ (PPath.ancestorOf_self _))
          have hmvG : G.move (fs1.uniqueDest (destOf entry)) (pyPath entry.src) =
              .ok ⟨removeKey G.files (fs1.uniqueDest (destOf entry)) ++
                [(pyPath entry.src, fid)], G.dirs⟩ := by
            unfold FS.move
            rw [hGsafe]
            dsimp only
            rw [if_neg (by rw [hGsrc_noexist]; simp), if_pos hsrc_parent_dir]
          refine ⟨⟨removeKey G.files (fs1.uniqueDest (destOf entry)) ++
            [(pyPath entry.src, fid)], G.dirs⟩, ?_, ?_, ?_, ?_⟩
          · rw [hrecs, List.reverse_cons]
            rw [undoLoop_append_nofail b recsR.reverse _ fsM G hundoR]
            have hsrc_rt : pyPath (pyPath entry.src).str = pyPath entry.src :=
              pyPath_str _ (pyPath_NF entry.src)
            have hsafe_rt : pyPath (fs1.uniqueDest (destOf entry)).str =
                fs1.uniqueDest (destOf entry) :=
              pyPath_str _ hsafe_NF
            unfold undoLoop
            dsimp only
            rw [hsrc_rt, hsafe_rt, hmkG]
            dsimp only
            rw [hudG, hmvG]
            dsimp only
            rfl
          · intro p
            show lookupP (removeKey G.files (fs1.uniqueDest (destOf entry)) ++
              [(pyPath entry.src, fid)]) p = lookupP fs.files p
            by_cases hps : p = fs1.uniqueDest (destOf entry)
            · subst hps
              rw [lookupP_append_none (lookupP_removeKey_self _ _)]
              rw [lookupP_single_ne (Ne.symm hsafe_ne_src)]
              have hnf : fs1.isFile (fs1.uniqueDest (destOf entry)) = false :=
                (FS.existsP_false_parts hexsafe).1
              unfold FS.isFile at hnf
              rw [hfiles1] at hnf
              rcases hl : lookupP fs.files (fs1.uniqueDest (destOf entry)) with _ | v
              · rfl
              · rw [hl] at hnf
                exact absurd hnf (by simp)
            · by_cases hpr : p = pyPath entry.src
              · subst hpr
                rw [lookupP_append_none]
                · show (if pyPath entry.src = pyPath entry.src then some fid else none) =
                    lookupP fs.files (pyPath entry.src)
                  rw [if_pos rfl, hsrcfile_fs]
                · rw [lookupP_removeKey_ne _ (Ne.symm hsafe_ne_src)]
                  exact hGsrc_notfile
              · have hfs2p : lookupP fs2.files p = lookupP fs.files p := by
                  rw [hfs2]
                  show lookupP (removeKey fs1.files (pyPath entry.src) ++
                    [(fs1.uniqueDest (destOf entry), fid)]) p = lookupP fs.files p
                  rw [lookupP_append, lookupP_removeKey_ne _ hpr, hfiles1]
                  rcases hl : lookupP fs.files p with _ | v
                  · exact lookupP_single_ne (fun h => hps h.symm)
                  · rfl
                rw [lookupP_append, lookupP_removeKey_ne _ hps, hlookG p, hfs2p]
                rcases hl : lookupP fs.files p with _ | v
                · exact lookupP_single_ne (fun h => hpr h.symm)
                · rfl
          · exact hdirsG
          · exact FS.move_WF hmvG hwfG

/-! ### C3: the perform/undo round trip -/

def c3x_plan : List PlanEntry :=
  [⟨"/f/Documents", "Others", "/f/Others/Documents"⟩,
   ⟨"/f/x.pdf", "Documents", "/f/Documents/x.pdf"⟩]

def c3x_st : St :=
  ⟨⟨[(⟨true, ["f", "Documents"]⟩, 0), (⟨true, ["f", "x.pdf"]⟩, 1)],
    [⟨true, []⟩, ⟨true, ["f"]⟩]⟩, none⟩

def c3x_recs : List MoveRec :=
  [⟨"/f/Documents", "/f/Others/Documents"⟩, ⟨"/f/x.pdf", "/f/Documents/x.pdf"⟩]

def c3x_st1 : St :=
  ⟨⟨[(⟨true, ["f", "Others", "Documents"]⟩, 0),
     (⟨true, ["f", "Documents", "x.pdf"]⟩, 1)],
    [⟨true, []⟩, ⟨true, ["f"]⟩, ⟨true, ["f", "Others"]⟩,
     ⟨true, ["f", "Documents"]⟩]⟩,
   some ⟨"t0", c3x_recs⟩⟩

def c3x_st2 : St :=
  ⟨⟨[(⟨true, ["f", "x.pdf"]⟩, 1), (⟨true, ["f", "Documents_1"]⟩, 0)],
    [⟨true, []⟩, ⟨true, ["f"]⟩, ⟨true, ["f", "Others"]⟩,
     ⟨true, ["f", "Documents"]⟩]⟩,
   none⟩

/-- C3 (counterexample): a batch on which `perform_moves` succeeds for every
entry, yet the immediate `undo_last_run` — although it reports success with
"Undid 2 moves." — does not restore the file that was at `/f/Documents`: the
destination directory `/f/Documents` created during the run still exists, so
the undo's collision avoidance lands that file at `/f/Documents_1`. -/
theorem c3_counterexample :
    c3x_st.fs.WF ∧ c3x_st.fs.AD ∧
    perform_moves_v1 c3x_plan "t0" c3x_st = .ok (c3x_recs, c3x_st1) ∧
    c3x_recs.length = c3x_plan.length ∧
    undo_last_run_v1 c3x_st1 = .ok (true, "Undid 2 moves.", c3x_st2) ∧
    lookupP c3x_st.fs.files ⟨true, ["f", "Documents"]⟩ = some 0 ∧
    lookupP c3x_st2.fs.files ⟨true, ["f", "Documents"]⟩ = none ∧
    lookupP c3x_st2.fs.files ⟨true, ["f", "Documents_1"]⟩ = some 0 :=
  ⟨⟨by decide, by decide, by decide⟩, by unfold FS.AD; decide,
   rfl, rfl, rfl, rfl, rfl, rfl⟩

/-- C3 (amended): for every batch on which `perform_moves` performs every
entry (one record per entry) and no entry's source path lies on the directory
chain of any entry's planned destination, the immediate `undo_last_run`
succeeds with message "Undid N moves." for N the batch size, restores the
file table exactly (every path holds the same file identity as before the
run), and clears the run record, so a second `undo_last_run` returns failure
with "No last run recorded.".  The flag picks the v1 or the v2 variant; the
side condition is needed because directories created during the run persist
and can occupy a restored file's original path (see the counterexample). -/
theorem c3_roundtrip (v1 : Bool) (plan : List PlanEntry) (now : String)
    (st : St) (recs : List MoveRec) (st1 : St)
    (hwf : st.fs.WF) (had : st.fs.AD)
    (hperf : (if v1 then perform_moves_v1 plan now st
      else perform_moves_v2 plan now st) = .ok (recs, st1))
    (hlen : recs.length = plan.length) (hne : plan ≠ [])
    (hH : ∀ e ∈ plan, ∀ e2 ∈ plan,
      ¬ (pyPath e.src).ancestorOf (pyPath e2.planned_dest).parent) :
    ∃ st2 : St,
      (if v1 then undo_last_run_v1 st1 else undo_last_run_v2 st1)
        = .ok (true, undidMsg plan.length, st2) ∧
      (∀ p, lookupP st2.fs.files p = lookupP st.fs.files p) ∧
      st2.lastRun = none ∧
      (if v1 then undo_last_run_v1 st2 else undo_last_run_v2 st2)
        = .ok (false, "No last run recorded.", st2) := by
  cases v1 with
  | false =>
    have hp : perform_moves_v2 plan now st = .ok (recs, st1) := hperf
    unfold perform_moves_v2 at hp
    rcases hpl : performLoop destOfV2 plan st.fs with e | pr
    · rw [hpl] at hp
      exact absurd hp (by simp)
    · rw [hpl] at hp
      rcases pr with ⟨performed, fs'⟩
      dsimp only at hp
      have hpair := Except.ok.inj hp
      have hrecs : performed = recs := congrArg Prod.fst hpair
      subst hrecs
      have hrecs_ne : performed ≠ [] := by
        intro h0
        rw [h0] at hlen
        exact hne (List.length_eq_zero.mp hlen.symm)
      have hempty : performed.isEmpty = false := by
        cases performed with
        | nil => exact absurd rfl hrecs_ne
        | cons a l => rfl
      have h2 : St.mk fs' (if performed.isEmpty then st.lastRun
          else some (RunLog.mk now performed)) = st1 := congrArg Prod.snd hpair
      have hst1 : st1 = St.mk fs' (some (RunLog.mk now performed)) := by
        rw [← h2, hempty]
        rfl
      subst hst1
      obtain ⟨fsU, hU, hlook, hdirs, hwfU⟩ :=
        performUndo_roundTrip destOfV2 destOfV2_NF (fun e _ => destOfV2_parent e)
          false plan st.fs performed fs' hwf had hpl hlen hH
      refine ⟨St.mk fsU none, ?_, hlook, rfl, ?_⟩
      · show undo_last_run_v2 (St.mk fs' (some (RunLog.mk now performed)))
          = .ok (true, undidMsg plan.length, St.mk fsU none)
        unfold undo_last_run_v2
        dsimp only
        rw [hU]
        dsimp only
        rw [if_pos List.isEmpty_nil, hlen]
      · show undo_last_run_v2 (St.mk fsU none)
          = .ok (false, "No last run recorded.", St.mk fsU none)
        rfl
  | true =>
    have hp : perform_moves_v1 plan now st = .ok (recs, st1) := hperf
    unfold perform_moves_v1 at hp
    rcases hpl : performLoop destOfV1 plan st.fs with e | pr
    · rw [hpl] at hp
      exact absurd hp (by simp)
    · rw [hpl] at hp
      rcases pr with ⟨performed, fs'⟩
      dsimp only at hp
      have hpair := Except.ok.inj hp
      have hrecs : performed = recs := congrArg Prod.fst hpair
      subst hrecs
      have hrecs_ne : performed ≠ [] := by
        intro h0
        rw [h0] at hlen
        exact hne (List.length_eq_zero.mp hlen.symm)
      have hempty : performed.isEmpty = false := by
        cases performed with
        | nil => exact absurd rfl hrecs_ne
        | cons a l => rfl
      have h2 : St.mk fs' (if performed.isEmpty then st.lastRun
          else some (RunLog.mk now performed)) = st1 := congrArg Prod.snd hpair
      have hst1 : st1 = St.mk fs' (some (RunLog.mk now performed)) := by
        rw [← h2, hempty]
        rfl
      subst hst1
      obtain ⟨fsU, hU, hlook, hdirs, hwfU⟩ :=
        performUndo_roundTrip destOfV1 destOfV1_NF (fun e h => destOfV1_parent e h)
          true plan st.fs performed fs' hwf had hpl hlen hH
      refine ⟨St.mk fsU none, ?_, hlook, rfl, ?_⟩
      · show undo_last_run_v1 (St.mk fs' (some (RunLog.mk now performed)))
          = .ok (true, undidMsg plan.length, St.mk fsU none)
        unfold undo_last_run_v1
        dsimp only
        rw [hU]
        dsimp only
        rw [if_pos List.isEmpty_nil, hlen]
      · show undo_last_run_v1 (St.mk fsU none)
          = .ok (false, "No last run recorded.", St.mk fsU none)
        rfl

def c3w_plan : List PlanEntry :=
  [⟨"/f/report.pdf", "Documents", "/f/Documents/report.pdf"⟩]

def c3w_st : St :=
  ⟨⟨[(⟨true, ["f", "report.pdf"]⟩, 0)], [⟨true, []⟩, ⟨true, ["f"]⟩]⟩, none⟩

def c3w_recs : List MoveRec := [⟨"/f/report.pdf", "/f/Documents/report.pdf"⟩]

def c3w_st1 : St :=
  ⟨⟨[(⟨true, ["f", "Documents", "report.pdf"]⟩, 0)],
    [⟨true, []⟩, ⟨true, ["f"]⟩, ⟨true, ["f", "Documents"]⟩]⟩,
   some ⟨"t0", c3w_recs⟩⟩

/-- Witness for C3: a one-file v1 run (`/f/report.pdf` to
`/f/Documents/report.pdf`) satisfies every hypothesis concretely, and the
round trip restores the file table and clears the run record. -/
theorem c3_roundtrip_witness :
    ∃ st2 : St,
      (if (true : Bool) then undo_last_run_v1 c3w_st1 else undo_last_run_v2 c3w_st1)
        = .ok (true, undidMsg c3w_plan.length, st2) ∧
      (∀ p, lookupP st2.fs.files p = lookupP c3w_st.fs.files p) ∧
      st2.lastRun = none ∧
      (if (true : Bool) then undo_last_run_v1 st2 else undo_last_run_v2 st2)
        = .ok (false, "No last run recorded.", st2) :=
  c3_roundtrip true c3w_plan "t0" c3w_st c3w_recs c3w_st1
    ⟨by decide, by decide, by decide⟩ (by unfold FS.AD; decide) rfl (by decide)
    (by decide) (by decide)
